import Mathlib

/-!
# Verification of the casbin Azure Blob Storage adapter

A shallow embedding of the `blobadapter` Go package (RedeployAB/casbin-blob-adapter)
together with proofs about its load/save protocol.

The repository snapshot holds two generations of the adapter:

* the current, eager-initialization version (`adapter.go`, here namespace
  `BlobAdapter`): the constructors run `initAdapter`, which creates the target
  container and uploads an empty blob when they are absent, and `LoadPolicy`
  always surfaces a not-found download condition as an error;
* an older, lazy version (embedded in the repository documentation, here
  namespace `BlobAdapter.Lazy`): no initialization at construction, and an
  `initiated` flag that tolerates the first not-found `LoadPolicy`.

Strings are embedded as `List Char` (`Str`), so that the byte-level
manipulations of the Go code (`strings.TrimSpace`, `strings.TrimRight`,
`bufio.ScanLines`, comma splitting) become structurally recursive functions.
Go's `unicode.IsSpace` is rendered by `Char.isWhitespace` (space, tab, CR, LF),
which covers every whitespace character the adapter ever produces or consumes.

The Azure SDK client is an external collaborator.  Its calls are embedded in
two complementary ways: an honest in-memory store (`Store`), mirroring the
semantics of Azure Blob Storage and of the repository's own mock client, for
the initialization claims; and explicit response oracles (the outcome of
`DownloadStream` / `CreateContainer` / `UploadStream` passed as an argument)
for the error-mapping claims.  Every adapter operation also reports the list
of store calls (`StoreOp`) it issued.
-/

deriving instance DecidableEq for Except

namespace BlobAdapter

/-- Go strings, embedded as lists of characters. -/
abbrev Str := List Char

/-- `strings.TrimRight(s, "\n")`: drop every trailing newline character. -/
def goTrimRightNl (s : Str) : Str :=
  (s.reverse.dropWhile (fun c => c = '\n')).reverse

/-- Trailing-whitespace trimming, the right half of `strings.TrimSpace`. -/
def trimRightWs (s : Str) : Str :=
  (s.reverse.dropWhile Char.isWhitespace).reverse

/-- `strings.TrimSpace`: drop leading and trailing whitespace. -/
def goTrimSpace (s : Str) : Str :=
  trimRightWs (s.dropWhile Char.isWhitespace)

/-- Split a string at every occurrence of the separator character, keeping
empty pieces (`strings.Split` / the field structure seen by the csv line
parser). Always returns at least one piece. -/
def splitOnChar (sep : Char) : Str → List Str
  | [] => [[]]
  | c :: cs =>
    match splitOnChar sep cs with
    | [] => [[]]
    | h :: t => if c = sep then [] :: h :: t else (c :: h) :: t

/-- `strings.Join(fields, sep)`. -/
def joinSep (sep : Str) : List Str → Str
  | [] => []
  | [f] => f
  | f :: fs => f ++ sep ++ joinSep sep fs

/-- `dropCR` of `bufio.ScanLines`: strip one trailing carriage return. -/
def dropCR (l : Str) : Str :=
  if l.getLast? = some '\r' then l.dropLast else l

/-- The sequence of lines produced by a `bufio.Scanner` with `ScanLines`:
split at every newline, strip one trailing `\r` per line, and do not emit a
final empty line for a newline-terminated input. -/
def scanLines (s : Str) : List Str :=
  match s with
  | [] => []
  | _ :: _ =>
    let ps := splitOnChar '\n' s
    (if s.getLast? = some '\n' then ps.dropLast else ps).map dropCR

/-- A policy rule: an ordered sequence of string fields. -/
abbrev Rule := List Str

/-- `model.Assertion`, restricted to the only field the adapter reads. -/
structure Assertion where
  policy : List Rule
deriving DecidableEq

/-- `model.AssertionMap`: rule-type tag ↦ assertion.  Go's map is embedded as
an association list carrying the stored rule order; map iteration order is
made explicit where the code ranges over the map. -/
abbrev AssertionMap := List (Str × Assertion)

/-- The slice of `model.Model` visible to the adapter: its `"p"` and `"g"`
sections. -/
structure Model where
  p : AssertionMap
  g : AssertionMap
deriving DecidableEq

/-- The empty model. -/
def emptyModel : Model := ⟨[], []⟩

/-- Azure service error codes distinguished by the adapter
(`bloberror.ContainerNotFound` and friends). -/
inductive ErrorCode where
  | containerNotFound
  | blobNotFound
  | containerAlreadyExists
  | resourceAlreadyExists
  | other (code : String)
deriving DecidableEq

/-- An `azcore.ResponseError`, reduced to its error code. -/
structure ResponseError where
  errorCode : ErrorCode
deriving DecidableEq

/-- `bloberror.HasCode(err, codes...)`. -/
def hasCode (e : ResponseError) (codes : List ErrorCode) : Bool :=
  codes.contains e.errorCode

/-- The errors a call can return: the sentinel errors of `errors.go`, the
wrapping errors built by `fmt.Errorf("%w: %s", ...)`, the fixed
"not implemented" error, a pass-through Azure response error, and a
pass-through error of the line handler collaborator. -/
inductive GoError where
  | invalidAccount
  | invalidCredential
  | invalidConnectionString
  | invalidKey
  | invalidContainer
  | invalidBlob
  | containerDoesNotExist (container : Str)
  | blobDoesNotExist (blob : Str)
  | notImplemented
  | response (e : ResponseError)
  | handlerErr (msg : String)
deriving DecidableEq

/-- `azcore.TokenCredential`; a `nil` credential is `Option.none`. -/
inductive Credential where
  | token
deriving DecidableEq

/-- The store calls an adapter operation can issue. -/
inductive StoreOp where
  | listContainers (pfx : Str)
  | listBlobs (container : Str) (pfx : Str)
  | createContainer (container : Str)
  | upload (container : Str) (blob : Str) (content : Str)
  | download (container : Str) (blob : Str)
deriving DecidableEq

/-- `checkContainerBlobArguments`. -/
def checkContainerBlobArguments (container blob : Str) : Option GoError :=
  if container.length = 0 then some GoError.invalidContainer
  else if blob.length = 0 then some GoError.invalidBlob
  else none

/-- `checkAccountCredentialsArguments`. -/
def checkAccountCredentialsArguments (account : Str) (cred : Option Credential) :
    Option GoError :=
  if account.length = 0 then some GoError.invalidAccount
  else if cred.isNone then some GoError.invalidCredential
  else none

/-- `checkAccountKeyArguments`. -/
def checkAccountKeyArguments (account key : Str) : Option GoError :=
  if account.length = 0 then some GoError.invalidAccount
  else if key.length = 0 then some GoError.invalidKey
  else none

/-- The adapter state (timeout in nanoseconds, as Go's `time.Duration`). -/
structure Adapter where
  container : Str
  blob : Str
  timeout : Nat
deriving DecidableEq

/-- The default per-call timeout, `time.Second * 10`. -/
def defaultTimeout : Nat := 10000000000

/-- A functional option, `type Option func(*Adapter)`. -/
abbrev Opt := Adapter → Adapter

/-- `WithTimeout`. -/
def WithTimeout (d : Nat) : Opt :=
  fun a => { a with timeout := d }

/-- An in-memory blob store: the honest semantics of the Azure service (and of
the repository's mock client). A blob is `(container, name, content)`. -/
structure Store where
  containers : List Str
  blobs : List (Str × Str × Str)
deriving DecidableEq

/-- A store is well formed when every blob lives in an existing container. -/
def Store.WF (s : Store) : Prop :=
  ∀ e ∈ s.blobs, e.1 ∈ s.containers

/-- The content stored for a blob, when present. -/
def getBlob (s : Store) (container blob : Str) : Option Str :=
  (s.blobs.find? (fun e => e.1 = container ∧ e.2.1 = blob)).map (fun e => e.2.2)

/-- Overwrite-or-create a blob entry (Azure upload semantics). -/
def setBlob (bs : List (Str × Str × Str)) (container blob v : Str) :
    List (Str × Str × Str) :=
  match bs with
  | [] => [(container, blob, v)]
  | e :: t =>
    if e.1 = container ∧ e.2.1 = blob then (container, blob, v) :: t
    else e :: setBlob t container blob v

/-- `CreateContainer`: fails with `ContainerAlreadyExists` when present. -/
def createContainer (s : Store) (container : Str) : Except ResponseError Store :=
  if s.containers.contains container then
    Except.error ⟨ErrorCode.containerAlreadyExists⟩
  else Except.ok { s with containers := s.containers ++ [container] }

/-- `UploadStream`: uploading to a missing container fails. -/
def uploadStream (s : Store) (container blob v : Str) : Except ResponseError Store :=
  if s.containers.contains container then
    Except.ok { s with blobs := setBlob s.blobs container blob v }
  else Except.error ⟨ErrorCode.containerNotFound⟩

/-- The single page returned by `NewListContainersPager` with a name filter:
every container name extending the filter string. -/
def listContainersPage (s : Store) (pfx : Str) : List Str :=
  s.containers.filter (fun c => pfx.isPrefixOf c)

/-- The single page returned by `NewListBlobsFlatPager` with a name filter. -/
def listBlobsPage (s : Store) (container pfx : Str) : List Str :=
  (s.blobs.filter (fun e => e.1 = container ∧ pfx.isPrefixOf e.2.1)).map
    (fun e => e.2.1)

/-- `createContainerIfNotExist`: list containers filtered by the target name,
scan the page for an exact match, and create the container when absent. -/
def createContainerIfNotExist (s : Store) (container : Str) :
    Except ResponseError Store × List StoreOp :=
  let found := (listContainersPage s container).contains container
  if found then (Except.ok s, [StoreOp.listContainers container])
  else
    match createContainer s container with
    | Except.ok s' =>
      (Except.ok s', [StoreOp.listContainers container, StoreOp.createContainer container])
    | Except.error e =>
      (Except.error e, [StoreOp.listContainers container, StoreOp.createContainer container])

/-- `createBlobIfNotExist`: list blobs filtered by the target name, scan the
page for an exact match, and upload an empty blob when absent. -/
def createBlobIfNotExist (s : Store) (container blob : Str) :
    Except ResponseError Store × List StoreOp :=
  let found := (listBlobsPage s container blob).contains blob
  if found then (Except.ok s, [StoreOp.listBlobs container blob])
  else
    match uploadStream s container blob [] with
    | Except.ok s' =>
      (Except.ok s', [StoreOp.listBlobs container blob, StoreOp.upload container blob []])
    | Except.error e =>
      (Except.error e, [StoreOp.listBlobs container blob, StoreOp.upload container blob []])

/-- `initAdapter`: ensure the container, then the blob, exist. -/
def initAdapter (a : Adapter) (s : Store) :
    Except ResponseError Store × List StoreOp :=
  match createContainerIfNotExist s a.container with
  | (Except.error e, ops) => (Except.error e, ops)
  | (Except.ok s', ops) =>
    match createBlobIfNotExist s' a.container a.blob with
    | (res, ops') => (res, ops ++ ops')

/-- `newAdapter`: validate the identifiers, apply the options, and run
`initAdapter` before returning.  (Client construction itself issues no store
call and is elided.) -/
def newAdapter (container blob : Str) (options : List Opt) (s : Store) :
    Except GoError (Adapter × Store) × List StoreOp :=
  match checkContainerBlobArguments container blob with
  | some e => (Except.error e, [])
  | none =>
    let a := options.foldl (fun a o => o a) ⟨container, blob, defaultTimeout⟩
    match initAdapter a s with
    | (Except.ok s', ops) => (Except.ok (a, s'), ops)
    | (Except.error e, ops) => (Except.error (GoError.response e), ops)

/-- `NewAdapter` (argument order as in Go: account, container, blob, cred). -/
def NewAdapter (account container blob : Str) (cred : Option Credential)
    (options : List Opt) (s : Store) :
    Except GoError (Adapter × Store) × List StoreOp :=
  match checkAccountCredentialsArguments account cred with
  | some e => (Except.error e, [])
  | none => newAdapter container blob options s

/-- `NewAdapterFromConnectionString`. -/
def NewAdapterFromConnectionString (connectionString container blob : Str)
    (options : List Opt) (s : Store) :
    Except GoError (Adapter × Store) × List StoreOp :=
  if connectionString.length = 0 then (Except.error GoError.invalidConnectionString, [])
  else newAdapter container blob options s

/-- `NewAdapterFromSharedKeyCredential`. -/
def NewAdapterFromSharedKeyCredential (account key container blob : Str)
    (options : List Opt) (s : Store) :
    Except GoError (Adapter × Store) × List StoreOp :=
  match checkAccountKeyArguments account key with
  | some e => (Except.error e, [])
  | none => newAdapter container blob options s

/-- `writeRule`: append `ptype + ", " + util.ArrayToString(rule) + "\n"` to the
buffer (`util.ArrayToString` joins the fields with `", "`). -/
def writeRule (buf : Str) (ptype : Str) (rule : Rule) : Str :=
  buf ++ ptype ++ (", ").toList ++ joinSep (", ").toList rule ++ ('\n' :: [])

/-- The serialization loop of `SavePolicy`: range over the `"p"` section, then
the `"g"` section, writing every rule, and strip the trailing newlines.  Go map
iteration order is unspecified, so the two section iteration sequences are
explicit arguments; a caller iterating model `m` passes permutations of `m.p`
and `m.g`. -/
def encodeModel (pSeq gSeq : AssertionMap) : Str :=
  let buf := pSeq.foldl
    (fun buf e => e.2.policy.foldl (fun buf r => writeRule buf e.1 r) buf) []
  let buf := gSeq.foldl
    (fun buf e => e.2.policy.foldl (fun buf r => writeRule buf e.1 r) buf) buf
  goTrimRightNl buf

/-- Append a rule to the assertion stored at a tag, creating the entry at the
end of the map when the tag is new. -/
def assertionMapAdd (am : AssertionMap) (key : Str) (rule : Rule) : AssertionMap :=
  match am with
  | [] => [(key, ⟨[rule]⟩)]
  | (k, a) :: t =>
    if k = key then (k, ⟨a.policy ++ [rule]⟩) :: t
    else (k, a) :: assertionMapAdd t key rule

/-- Modelled from the spec: the line-parsing function supplied by the policy
engine collaborator (`persist.LoadPolicyLine` of the external casbin library,
which is not part of this repository's source).  Per the spec it accepts a raw
line and the mutable model and fails on malformed input; empty lines and
comment lines are ignored, a line reads `tag, field, field, …`, and the rule is
appended to the section selected by the tag's first character. -/
def loadPolicyLine (line : Str) (m : Model) : Except GoError Model :=
  if line = [] ∨ line.head? = some '#' then Except.ok m
  else
    match (splitOnChar ',' line).map goTrimSpace with
    | [] => Except.ok m
    | key :: fields =>
      match key.head? with
      | some 'p' => Except.ok { m with p := assertionMapAdd m.p key fields }
      | some 'g' => Except.ok { m with g := assertionMapAdd m.g key fields }
      | _ => Except.error (GoError.handlerErr "invalid policy line")

/-- The scan loop of `loadPolicyBlob`: trim every line and feed it to the
handler, stopping at the first handler error. -/
def processLines (handler : Str → Model → Except GoError Model) :
    List Str → Model → Except GoError Model
  | [], m => Except.ok m
  | l :: ls, m =>
    match handler (goTrimSpace l) m with
    | Except.ok m' => processLines handler ls m'
    | Except.error e => Except.error e

/-- The outcome of the `DownloadStream` call, as seen by the adapter. -/
abbrev DownloadOutcome := Except ResponseError Str

/-- `loadPolicyBlob` (current, eager version): map the not-found download
conditions to the adapter's sentinel errors, return any other download error
unchanged, and otherwise scan the body line by line. -/
def loadPolicyBlob (a : Adapter) (dl : DownloadOutcome) (m : Model)
    (handler : Str → Model → Except GoError Model) : Except GoError Model :=
  match dl with
  | Except.error e =>
    if hasCode e [ErrorCode.containerNotFound] then
      Except.error (GoError.containerDoesNotExist a.container)
    else if hasCode e [ErrorCode.blobNotFound] then
      Except.error (GoError.blobDoesNotExist a.blob)
    else Except.error (GoError.response e)
  | Except.ok content => processLines handler (scanLines content) m

/-- `LoadPolicy` (current, eager version), with its store-call trace. -/
def LoadPolicy (a : Adapter) (dl : DownloadOutcome) (m : Model) :
    Except GoError Model × List StoreOp :=
  match checkContainerBlobArguments a.container a.blob with
  | some e => (Except.error e, [])
  | none => (loadPolicyBlob a dl m loadPolicyLine, [StoreOp.download a.container a.blob])

/-- `savePolicyBlob`: create the container, absorbing only the
already-exists conditions, then upload the document.  The outcomes of the two
store calls are explicit oracle arguments. -/
def savePolicyBlob (a : Adapter) (text : Str)
    (createRes : Except ResponseError Unit) (uploadRes : Except ResponseError Unit) :
    Except GoError Unit × List StoreOp :=
  match createRes with
  | Except.error e =>
    if hasCode e [ErrorCode.containerAlreadyExists, ErrorCode.resourceAlreadyExists] then
      match uploadRes with
      | Except.ok _ =>
        (Except.ok (), [StoreOp.createContainer a.container,
          StoreOp.upload a.container a.blob text])
      | Except.error eu =>
        (Except.error (GoError.response eu), [StoreOp.createContainer a.container,
          StoreOp.upload a.container a.blob text])
    else (Except.error (GoError.response e), [StoreOp.createContainer a.container])
  | Except.ok _ =>
    match uploadRes with
    | Except.ok _ =>
      (Except.ok (), [StoreOp.createContainer a.container,
        StoreOp.upload a.container a.blob text])
    | Except.error eu =>
      (Except.error (GoError.response eu), [StoreOp.createContainer a.container,
        StoreOp.upload a.container a.blob text])

/-- `SavePolicy` (identical in both versions): validate, serialize the model
(section iteration sequences explicit, see `encodeModel`), and upload. -/
def SavePolicy (a : Adapter) (pSeq gSeq : AssertionMap)
    (createRes uploadRes : Except ResponseError Unit) :
    Except GoError Unit × List StoreOp :=
  match checkContainerBlobArguments a.container a.blob with
  | some e => (Except.error e, [])
  | none => savePolicyBlob a (encodeModel pSeq gSeq) createRes uploadRes

/-- `AddPolicy`: not implemented; the adapter is untouched and no store call is
issued. -/
def AddPolicy (a : Adapter) (sec ptype : Str) (rule : Rule) :
    Except GoError Unit × Adapter × List StoreOp :=
  (Except.error GoError.notImplemented, a, [])

/-- `RemovePolicy`: not implemented. -/
def RemovePolicy (a : Adapter) (sec ptype : Str) (rule : Rule) :
    Except GoError Unit × Adapter × List StoreOp :=
  (Except.error GoError.notImplemented, a, [])

/-- `RemoveFilteredPolicy`: not implemented. -/
def RemoveFilteredPolicy (a : Adapter) (sec ptype : Str) (fieldIndex : Int)
    (fieldValues : List Str) : Except GoError Unit × Adapter × List StoreOp :=
  (Except.error GoError.notImplemented, a, [])

/-- Decoding a downloaded document: the line scan of `loadPolicyBlob` with the
standard handler, starting from the cleared model the engine passes in. -/
def decodeDoc (doc : Str) : Except GoError Model :=
  processLines loadPolicyLine (scanLines doc) emptyModel

namespace Lazy

/-- The adapter state of the older, lazy-initialization version: it carries the
`initiated` flag. -/
structure Adapter where
  container : Str
  blob : Str
  timeout : Nat
  initiated : Bool
deriving DecidableEq

/-- `loadPolicyBlob` of the lazy version: the first not-found download is
tolerated (`initiated` flips to true, success, model untouched); with
`initiated` already set, the not-found conditions surface as the sentinel
errors.  Returns the result and the updated adapter. -/
def loadPolicyBlob (a : Adapter) (dl : DownloadOutcome) (m : Model)
    (handler : Str → Model → Except GoError Model) :
    Except GoError Model × Adapter :=
  match dl with
  | Except.error e =>
    if hasCode e [ErrorCode.containerNotFound] then
      if !a.initiated then (Except.ok m, { a with initiated := true })
      else (Except.error (GoError.containerDoesNotExist a.container), a)
    else if hasCode e [ErrorCode.blobNotFound] then
      if !a.initiated then (Except.ok m, { a with initiated := true })
      else (Except.error (GoError.blobDoesNotExist a.blob), a)
    else (Except.error (GoError.response e), a)
  | Except.ok content => (processLines handler (scanLines content) m, a)

/-- `LoadPolicy` of the lazy version. -/
def LoadPolicy (a : Adapter) (dl : DownloadOutcome) (m : Model) :
    Except GoError Model × Adapter :=
  match checkContainerBlobArguments a.container a.blob with
  | some e => (Except.error e, a)
  | none => loadPolicyBlob a dl m loadPolicyLine

/-- `SavePolicy` of the lazy version: identical save path; in particular it
never writes the `initiated` flag. -/
def SavePolicy (a : Adapter) (pSeq gSeq : AssertionMap)
    (createRes uploadRes : Except ResponseError Unit) :
    (Except GoError Unit × List StoreOp) × Adapter :=
  match checkContainerBlobArguments a.container a.blob with
  | some e => ((Except.error e, []), a)
  | none =>
    (BlobAdapter.savePolicyBlob ⟨a.container, a.blob, a.timeout⟩
      (encodeModel pSeq gSeq) createRes uploadRes, a)

end Lazy

/-- One serialized rule line, `tag, field1, field2, …`. -/
def ruleLine (ptype : Str) (rule : Rule) : Str :=
  ptype ++ (", ").toList ++ joinSep (", ").toList rule

/-- The `(tag, rule)` pairs of a section iteration sequence, in the order the
serialization loop visits them. -/
def sectionPairs (seq : AssertionMap) : List (Str × Rule) :=
  seq.flatMap (fun e => e.2.policy.map (fun r => (e.1, r)))

/-- The serialized lines of a section iteration sequence, in order. -/
def sectionLines (seq : AssertionMap) : List Str :=
  (sectionPairs seq).map (fun pr => ruleLine pr.1 pr.2)

/-- The newline-terminated concatenation of a list of lines. -/
def rawDoc : List Str → Str
  | [] => []
  | l :: ls => l ++ '\n' :: rawDoc ls

/-- The model update the standard handler performs for a parsed rule whose tag
starts with `p` or `g`. -/
def modelAdd (m : Model) (key : Str) (rule : Rule) : Model :=
  match key.head? with
  | some 'p' => { m with p := assertionMapAdd m.p key rule }
  | some 'g' => { m with g := assertionMapAdd m.g key rule }
  | _ => m

/-- A string that survives the codec unchanged: free of the comma separator
and of line breaks, and invariant under whitespace trimming. -/
def CleanStr (x : Str) : Prop :=
  ',' ∉ x ∧ '\n' ∉ x ∧ goTrimSpace x = x

instance (x : Str) : Decidable (CleanStr x) := by
  unfold CleanStr; infer_instance

/-- A rule-type tag usable for section `c`: it starts with `c` and is clean. -/
def CleanKey (c : Char) (k : Str) : Prop :=
  k.head? = some c ∧ CleanStr k

instance (c : Char) (k : Str) : Decidable (CleanKey c k) := by
  unfold CleanKey; infer_instance

/-- A rule that survives the codec: non-empty, with clean fields, the last of
which is non-empty. -/
def CleanRule (r : Rule) : Prop :=
  r ≠ [] ∧ (∀ f ∈ r, CleanStr f) ∧ r.getLast? ≠ some []

instance (r : Rule) : Decidable (CleanRule r) := by
  unfold CleanRule; infer_instance

/-- A well-formed section: distinct tags that match the section letter, and a
non-empty list of clean rules per tag. -/
def CleanSection (c : Char) (am : AssertionMap) : Prop :=
  (am.map Prod.fst).Nodup ∧
    ∀ e ∈ am, CleanKey c e.1 ∧ e.2.policy ≠ [] ∧ ∀ r ∈ e.2.policy, CleanRule r

instance (c : Char) (am : AssertionMap) : Decidable (CleanSection c am) := by
  unfold CleanSection; infer_instance

/-- A model whose serialized form parses back to the same model. -/
def WellFormedModel (m : Model) : Prop :=
  CleanSection 'p' m.p ∧ CleanSection 'g' m.g

instance (m : Model) : Decidable (WellFormedModel m) := by
  unfold WellFormedModel; infer_instance

/-- The decode loop as the spec describes it, for comparison with
`processLines`: only non-empty trimmed lines reach the handler. -/
def processLinesSkippingEmpty (handler : Str → Model → Except GoError Model) :
    List Str → Model → Except GoError Model
  | [], m => Except.ok m
  | l :: ls, m =>
    if goTrimSpace l = [] then processLinesSkippingEmpty handler ls m
    else
      match handler (goTrimSpace l) m with
      | Except.ok m' => processLinesSkippingEmpty handler ls m'
      | Except.error e => Except.error e

/-- `loadPolicyBlob` as the spec describes it (feed each non-empty trimmed
line), for comparison with the embedded `loadPolicyBlob`. -/
def loadPolicyBlobSkippingEmpty (a : Adapter) (dl : DownloadOutcome) (m : Model)
    (handler : Str → Model → Except GoError Model) : Except GoError Model :=
  match dl with
  | Except.error e =>
    if hasCode e [ErrorCode.containerNotFound] then
      Except.error (GoError.containerDoesNotExist a.container)
    else if hasCode e [ErrorCode.blobNotFound] then
      Except.error (GoError.blobDoesNotExist a.blob)
    else Except.error (GoError.response e)
  | Except.ok content => processLinesSkippingEmpty handler (scanLines content) m

/-- A line handler that rejects blank lines; used to separate the two decode
loops above. -/
def blankRejectingHandler : Str → Model → Except GoError Model :=
  fun line m =>
    if line = [] then Except.error (GoError.handlerErr "blank line") else Except.ok m

/-- The model of the spec's concrete scenario: permission rule
`["alice","domain1","data1","read"]` and grouping rule
`["alice","admin","domain1"]`. -/
def scenarioModel : Model :=
  ⟨[(("p").toList,
      ⟨[[("alice").toList, ("domain1").toList, ("data1").toList, ("read").toList]]⟩)],
   [(("g").toList,
      ⟨[[("alice").toList, ("admin").toList, ("domain1").toList]]⟩)]⟩

/-- The byte sequence the spec's concrete scenario must upload. -/
def scenarioBytes : Str :=
  ("p, alice, domain1, data1, read\ng, alice, admin, domain1").toList

namespace Lazy

/-- One engine call against the lazy adapter, with its store-response oracle. -/
inductive Call where
  | load (dl : DownloadOutcome)
  | save (pSeq gSeq : AssertionMap)
      (createRes uploadRes : Except ResponseError Unit)

/-- The adapter state after one call. -/
def stepAdapter (a : Adapter) : Call → Adapter
  | Call.load dl => (LoadPolicy a dl emptyModel).2
  | Call.save pSeq gSeq c u => (SavePolicy a pSeq gSeq c u).2

/-- Whether a call is a tolerated not-found load: a load that hits a not-found
download condition, passes argument validation, and finds `initiated` unset. -/
def tolerates (a : Adapter) : Call → Bool
  | Call.load (Except.error e) =>
    (checkContainerBlobArguments a.container a.blob).isNone &&
      (hasCode e [ErrorCode.containerNotFound] || hasCode e [ErrorCode.blobNotFound]) &&
      !a.initiated
  | _ => false

/-- How many calls of a sequence are tolerated not-found loads. -/
def toleratedCount (a : Adapter) : List Call → Nat
  | [] => 0
  | c :: cs =>
    (if tolerates a c then 1 else 0) + toleratedCount (stepAdapter a c) cs

end Lazy

/-!
## Theorems
-/

/-- Claim C9: for every input, each of `AddPolicy`, `RemovePolicy` and
`RemoveFilteredPolicy` returns the fixed "not implemented" error and performs
no side effect: no store operation is issued and the adapter state is
unchanged. -/
theorem claim_C9_unimplemented :
    ∀ (a : Adapter) (sec ptype : Str) (rule : Rule) (fieldIndex : Int)
      (fieldValues : List Str),
      AddPolicy a sec ptype rule = (Except.error GoError.notImplemented, a, []) ∧
      RemovePolicy a sec ptype rule = (Except.error GoError.notImplemented, a, []) ∧
      RemoveFilteredPolicy a sec ptype fieldIndex fieldValues =
        (Except.error GoError.notImplemented, a, []) := by
  intro a sec ptype rule fieldIndex fieldValues
  exact ⟨rfl, rfl, rfl⟩

/-- Claim C8: every constructor rejects its invalid argument with the matching
sentinel error — `ErrInvalidAccount`, `ErrInvalidCredential`,
`ErrInvalidConnectionString`, `ErrInvalidKey`, `ErrInvalidContainer`,
`ErrInvalidBlob` — before issuing any store call (the trace is empty), and
`LoadPolicy` / `SavePolicy` likewise fail with `ErrInvalidContainer` or
`ErrInvalidBlob` before any store call when the adapter's identifiers are
empty. -/
theorem claim_C8_argument_validation :
    (∀ container blob cred options s,
      NewAdapter [] container blob cred options s =
        (Except.error GoError.invalidAccount, [])) ∧
    (∀ a acc container blob options s,
      NewAdapter (a :: acc) container blob none options s =
        (Except.error GoError.invalidCredential, [])) ∧
    (∀ container blob options s,
      NewAdapterFromConnectionString [] container blob options s =
        (Except.error GoError.invalidConnectionString, [])) ∧
    (∀ key container blob options s,
      NewAdapterFromSharedKeyCredential [] key container blob options s =
        (Except.error GoError.invalidAccount, [])) ∧
    (∀ a acc container blob options s,
      NewAdapterFromSharedKeyCredential (a :: acc) [] container blob options s =
        (Except.error GoError.invalidKey, [])) ∧
    (∀ a acc blob cr options s,
      NewAdapter (a :: acc) [] blob (some cr) options s =
        (Except.error GoError.invalidContainer, [])) ∧
    (∀ a acc c cont cr options s,
      NewAdapter (a :: acc) (c :: cont) [] (some cr) options s =
        (Except.error GoError.invalidBlob, [])) ∧
    (∀ cc ccs blob options s,
      NewAdapterFromConnectionString (cc :: ccs) [] blob options s =
        (Except.error GoError.invalidContainer, [])) ∧
    (∀ cc ccs c cont options s,
      NewAdapterFromConnectionString (cc :: ccs) (c :: cont) [] options s =
        (Except.error GoError.invalidBlob, [])) ∧
    (∀ a acc k ks blob options s,
      NewAdapterFromSharedKeyCredential (a :: acc) (k :: ks) [] blob options s =
        (Except.error GoError.invalidContainer, [])) ∧
    (∀ a acc k ks c cont options s,
      NewAdapterFromSharedKeyCredential (a :: acc) (k :: ks) (c :: cont) [] options s =
        (Except.error GoError.invalidBlob, [])) ∧
    (∀ blob t dl m,
      LoadPolicy ⟨[], blob, t⟩ dl m = (Except.error GoError.invalidContainer, [])) ∧
    (∀ c cont t dl m,
      LoadPolicy ⟨c :: cont, [], t⟩ dl m = (Except.error GoError.invalidBlob, [])) ∧
    (∀ blob t pSeq gSeq cr ur,
      SavePolicy ⟨[], blob, t⟩ pSeq gSeq cr ur =
        (Except.error GoError.invalidContainer, [])) ∧
    (∀ c cont t pSeq gSeq cr ur,
      SavePolicy ⟨c :: cont, [], t⟩ pSeq gSeq cr ur =
        (Except.error GoError.invalidBlob, [])) := by
  refine ⟨?_, ?_, ?_, ?_, ?_, ?_, ?_, ?_, ?_, ?_, ?_, ?_, ?_, ?_, ?_⟩ <;>
    intros <;> rfl

/-- Claim C4: saving a model that contains exactly the permission rule
`["alice","domain1","data1","read"]` and the grouping rule
`["alice","admin","domain1"]` uploads exactly the bytes
`p, alice, domain1, data1, read` + newline + `g, alice, admin, domain1`, with
no trailing newline; and loading exactly that byte sequence reconstructs the
same two rules. -/
theorem claim_C4_concrete_scenario :
    encodeModel scenarioModel.p scenarioModel.g = scenarioBytes ∧
    SavePolicy ⟨("container").toList, ("blob").toList, defaultTimeout⟩
        scenarioModel.p scenarioModel.g (Except.ok ()) (Except.ok ()) =
      (Except.ok (), [StoreOp.createContainer ("container").toList,
        StoreOp.upload ("container").toList ("blob").toList scenarioBytes]) ∧
    LoadPolicy ⟨("container").toList, ("blob").toList, defaultTimeout⟩
        (Except.ok scenarioBytes) emptyModel =
      (Except.ok scenarioModel, [StoreOp.download ("container").toList ("blob").toList]) := by
  refine ⟨by decide, by decide, by decide⟩

/-- Claim C5: for every `SavePolicy` call, a create-container failure whose
code is `ContainerAlreadyExists` or `ResourceAlreadyExists` is fully absorbed
(the call behaves exactly as if creation had succeeded, and the upload still
proceeds); any other create-container error is returned and no upload is
issued; and an upload error is returned to the caller unchanged. -/
theorem claim_C5_save_error_mapping :
    ∀ (a : Adapter) (text : Str) (uploadRes : Except ResponseError Unit)
      (code : ErrorCode) (eu : ResponseError),
      (savePolicyBlob a text (Except.error ⟨ErrorCode.containerAlreadyExists⟩) uploadRes =
        savePolicyBlob a text (Except.ok ()) uploadRes) ∧
      (savePolicyBlob a text (Except.error ⟨ErrorCode.resourceAlreadyExists⟩) uploadRes =
        savePolicyBlob a text (Except.ok ()) uploadRes) ∧
      (StoreOp.upload a.container a.blob text ∈
        (savePolicyBlob a text (Except.error ⟨ErrorCode.containerAlreadyExists⟩) uploadRes).2) ∧
      (code ≠ ErrorCode.containerAlreadyExists → code ≠ ErrorCode.resourceAlreadyExists →
        savePolicyBlob a text (Except.error ⟨code⟩) uploadRes =
          (Except.error (GoError.response ⟨code⟩), [StoreOp.createContainer a.container])) ∧
      (savePolicyBlob a text (Except.ok ()) (Except.error eu) =
        (Except.error (GoError.response eu),
          [StoreOp.createContainer a.container, StoreOp.upload a.container a.blob text])) := by
  intro a text uploadRes code eu
  refine ⟨?_, ?_, ?_, ?_, rfl⟩
  · cases uploadRes <;> rfl
  · cases uploadRes <;> rfl
  · cases uploadRes <;> simp [savePolicyBlob, hasCode]
  · intro h1 h2
    cases code <;> first
      | exact absurd rfl h1
      | exact absurd rfl h2
      | rfl

/-- Witness for claim C5 at a concrete input: a `ContainerNotFound` creation
failure is fatal and suppresses the upload. -/
theorem claim_C5_witness :
    savePolicyBlob ⟨("c").toList, ("b").toList, defaultTimeout⟩ ("doc").toList
        (Except.error ⟨ErrorCode.containerNotFound⟩) (Except.ok ()) =
      (Except.error (GoError.response ⟨ErrorCode.containerNotFound⟩),
        [StoreOp.createContainer ("c").toList]) :=
  (claim_C5_save_error_mapping ⟨("c").toList, ("b").toList, defaultTimeout⟩
    ("doc").toList (Except.ok ()) ErrorCode.containerNotFound
    ⟨ErrorCode.containerNotFound⟩).2.2.2.1 (by decide) (by decide)

/-- The load scan over an appended list of lines runs the first part first and
continues with the rest only when no error occurred. -/
theorem processLines_append (handler : Str → Model → Except GoError Model)
    (xs ys : List Str) (m : Model) :
    processLines handler (xs ++ ys) m =
      match processLines handler xs m with
      | Except.ok m' => processLines handler ys m'
      | Except.error e => Except.error e := by
  induction xs generalizing m with
  | nil => simp [processLines]
  | cons l ls ih =>
    simp only [List.cons_append, processLines]
    cases handler (goTrimSpace l) m with
    | ok m' => exact ih m'
    | error e => rfl

/-- Counterexample to claim C7 as stated: the code feeds empty trimmed lines
to the handler as well.  On the document `"a\n\nb"` and a handler that rejects
blank lines, `loadPolicyBlob` returns the handler's error, while the decode
loop the claim describes (skipping empty trimmed lines) succeeds. -/
theorem claim_C7_counterexample :
    loadPolicyBlob ⟨("c").toList, ("b").toList, defaultTimeout⟩
        (Except.ok ("a\n\nb").toList) emptyModel blankRejectingHandler =
      Except.error (GoError.handlerErr "blank line") ∧
    loadPolicyBlobSkippingEmpty ⟨("c").toList, ("b").toList, defaultTimeout⟩
        (Except.ok ("a\n\nb").toList) emptyModel blankRejectingHandler =
      Except.ok emptyModel := by
  exact ⟨by decide, by decide⟩

/-- Claim C7 (amended): for every downloaded document, `loadPolicyBlob` splits
it into lines, trims surrounding whitespace from each line, feeds every
trimmed line — empty ones included — to the supplied handler in order, and
returns the first handler error immediately: the result does not depend on the
lines after the first malformed one. -/
theorem claim_C7_amended_fail_fast :
    ∀ (a : Adapter) (handler : Str → Model → Except GoError Model)
      (content : Str) (ls₁ : List Str) (l : Str) (ls₂ : List Str)
      (m m' : Model) (e : GoError),
      scanLines content = ls₁ ++ l :: ls₂ →
      processLines handler ls₁ m = Except.ok m' →
      handler (goTrimSpace l) m' = Except.error e →
      loadPolicyBlob a (Except.ok content) m handler = Except.error e := by
  intro a handler content ls₁ l ls₂ m m' e hscan h1 h2
  simp only [loadPolicyBlob, hscan, processLines_append, h1, processLines, h2]

/-- Witness for claim C7 (amended) at a concrete input: on `"a\n\nb"` with a
blank-rejecting handler, the error of the second (empty) line is returned. -/
theorem claim_C7_amended_witness :
    loadPolicyBlob ⟨("cc").toList, ("bb").toList, defaultTimeout⟩
        (Except.ok ("a\n\nb").toList) emptyModel blankRejectingHandler =
      Except.error (GoError.handlerErr "blank line") :=
  claim_C7_amended_fail_fast ⟨("cc").toList, ("bb").toList, defaultTimeout⟩
    blankRejectingHandler ("a\n\nb").toList [("a").toList] [] [("b").toList]
    emptyModel emptyModel (GoError.handlerErr "blank line")
    (by decide) (by decide) (by decide)

/-- `rawDoc` distributes over list append. -/
theorem rawDoc_append (xs ys : List Str) :
    rawDoc (xs ++ ys) = rawDoc xs ++ rawDoc ys := by
  induction xs with
  | nil => rfl
  | cons l ls ih => simp [rawDoc, ih]

/-- The lines of a section iteration sequence, unfolded one entry at a time. -/
theorem sectionLines_cons (e : Str × Assertion) (t : AssertionMap) :
    sectionLines (e :: t) = e.2.policy.map (ruleLine e.1) ++ sectionLines t := by
  simp [sectionLines, sectionPairs, List.flatMap_cons, List.map_map]

/-- Writing one assertion's rules appends its newline-terminated lines to the
buffer. -/
theorem foldWrite_policy (policy : List Rule) (k : Str) (buf : Str) :
    policy.foldl (fun b r => writeRule b k r) buf =
      buf ++ rawDoc (policy.map (ruleLine k)) := by
  induction policy generalizing buf with
  | nil => simp [rawDoc]
  | cons r rs ih =>
    simp only [List.foldl_cons, List.map_cons, rawDoc, ih]
    simp [writeRule, ruleLine, List.append_assoc]

/-- The serialization loop over a section appends the section's
newline-terminated lines to the buffer. -/
theorem foldWrite_section (seq : AssertionMap) (buf : Str) :
    seq.foldl (fun b e => e.2.policy.foldl (fun b r => writeRule b e.1 r) b) buf =
      buf ++ rawDoc (sectionLines seq) := by
  induction seq generalizing buf with
  | nil => simp [sectionLines, sectionPairs, rawDoc]
  | cons e t ih =>
    rw [List.foldl_cons, foldWrite_policy, ih, sectionLines_cons, rawDoc_append,
      List.append_assoc]

/-- `encodeModel` is the newline-joined document of the permission-section
lines followed by the grouping-section lines, with the trailing newline
stripped. -/
theorem encodeModel_eq_rawDoc (pSeq gSeq : AssertionMap) :
    encodeModel pSeq gSeq =
      goTrimRightNl (rawDoc (sectionLines pSeq ++ sectionLines gSeq)) := by
  simp [encodeModel, foldWrite_section, rawDoc_append]

/-- A permutation of a list with at most one element is that list. -/
theorem perm_eq_of_length_le_one {α : Type} {l l' : List α}
    (h : l.Perm l') (hl : l'.length ≤ 1) : l = l' := by
  match l', hl with
  | [], _ => exact List.perm_nil.mp h
  | [x], _ => exact List.perm_singleton.mp h

/-- Counterexample to claim C6 as stated: `SavePolicy` ranges over the Go map
of rule-type tags, whose iteration order is unspecified, so two calls on the
same model (one section holding the two tags `p` and `p2`) can upload
different byte sequences. -/
theorem claim_C6_counterexample :
    List.Perm
      [(("p2").toList, (⟨[[("b").toList]]⟩ : Assertion)),
        (("p").toList, (⟨[[("a").toList]]⟩ : Assertion))]
      [(("p").toList, (⟨[[("a").toList]]⟩ : Assertion)),
        (("p2").toList, (⟨[[("b").toList]]⟩ : Assertion))] ∧
    encodeModel
        [(("p").toList, (⟨[[("a").toList]]⟩ : Assertion)),
          (("p2").toList, (⟨[[("b").toList]]⟩ : Assertion))] [] ≠
      encodeModel
        [(("p2").toList, (⟨[[("b").toList]]⟩ : Assertion)),
          (("p").toList, (⟨[[("a").toList]]⟩ : Assertion))] [] := by
  constructor
  · exact List.Perm.swap _ _ _
  · decide

/-- Claim C6 (amended): the serialized document is a deterministic function of
the model *and the map iteration order of its rule-type tags*: every
permission-section line precedes every grouping-section line, each tag's rules
appear in stored order, one per line, with no sorting; and when each section
holds at most one rule-type tag, any two `SavePolicy` calls on equal models
produce identical byte sequences. -/
theorem claim_C6_amended_deterministic_encoding :
    ∀ (m : Model) (pSeq pSeq' gSeq gSeq' : AssertionMap),
      pSeq.Perm m.p → pSeq'.Perm m.p → gSeq.Perm m.g → gSeq'.Perm m.g →
      (encodeModel pSeq gSeq =
        goTrimRightNl (rawDoc (sectionLines pSeq ++ sectionLines gSeq))) ∧
      (m.p.length ≤ 1 → m.g.length ≤ 1 → encodeModel pSeq gSeq = encodeModel pSeq' gSeq') := by
  intro m pSeq pSeq' gSeq gSeq' hp hp' hg hg'
  refine ⟨encodeModel_eq_rawDoc pSeq gSeq, ?_⟩
  intro hpl hgl
  rw [perm_eq_of_length_le_one hp hpl, perm_eq_of_length_le_one hp' hpl,
    perm_eq_of_length_le_one hg hgl, perm_eq_of_length_le_one hg' hgl]

/-- Witness for claim C6 (amended) at a concrete input: with singleton
sections the encoding is unique. -/
theorem claim_C6_amended_witness :
    encodeModel scenarioModel.p scenarioModel.g =
      goTrimRightNl (rawDoc (sectionLines scenarioModel.p ++ sectionLines scenarioModel.g)) ∧
    encodeModel scenarioModel.p scenarioModel.g =
      encodeModel scenarioModel.p scenarioModel.g := by
  have h := claim_C6_amended_deterministic_encoding scenarioModel
    scenarioModel.p scenarioModel.p scenarioModel.g scenarioModel.g
    (List.Perm.refl _) (List.Perm.refl _) (List.Perm.refl _) (List.Perm.refl _)
  exact ⟨h.1, h.2 (by decide) (by decide)⟩

/-- After any single call, the lazy adapter's `initiated` flag is its old
value, flipped to `true` exactly by a tolerated not-found load. -/
theorem lazy_step_initiated (a : Lazy.Adapter) (c : Lazy.Call) :
    (Lazy.stepAdapter a c).initiated = (a.initiated || Lazy.tolerates a c) := by
  cases c with
  | save pSeq gSeq cr ur =>
    simp only [Lazy.stepAdapter, Lazy.SavePolicy, Lazy.tolerates]
    cases checkContainerBlobArguments a.container a.blob <;> simp
  | load dl =>
    cases dl with
    | ok content =>
      simp only [Lazy.stepAdapter, Lazy.LoadPolicy, Lazy.tolerates, Lazy.loadPolicyBlob]
      cases checkContainerBlobArguments a.container a.blob <;> simp
    | error e =>
      simp only [Lazy.stepAdapter, Lazy.LoadPolicy, Lazy.tolerates, Lazy.loadPolicyBlob]
      cases hchk : checkContainerBlobArguments a.container a.blob with
      | some e' => simp [hchk]
      | none =>
        cases hcnf : hasCode e [ErrorCode.containerNotFound] <;>
          cases hbnf : hasCode e [ErrorCode.blobNotFound] <;>
            cases hin : a.initiated <;>
              simp [hchk, hcnf, hbnf, hin]

/-- Once the `initiated` flag is set, no call of any sequence is tolerated. -/
theorem lazy_toleratedCount_eq_zero (cs : List Lazy.Call) :
    ∀ (a : Lazy.Adapter), a.initiated = true → Lazy.toleratedCount a cs = 0 := by
  induction cs with
  | nil => intro a _; rfl
  | cons c cs ih =>
    intro a hin
    have ht : Lazy.tolerates a c = false := by
      cases c with
      | save pSeq gSeq cr ur => rfl
      | load dl =>
        cases dl with
        | ok content => rfl
        | error e => simp [Lazy.tolerates, hin]
    have hstep : (Lazy.stepAdapter a c).initiated = true := by
      rw [lazy_step_initiated, hin, Bool.true_or]
    simp [Lazy.toleratedCount, ht, ih _ hstep]

/-- Any call sequence against any lazy adapter tolerates at most one
not-found load. -/
theorem lazy_toleratedCount_le_one (cs : List Lazy.Call) :
    ∀ (a : Lazy.Adapter), Lazy.toleratedCount a cs ≤ 1 := by
  induction cs with
  | nil => intro a; exact Nat.zero_le 1
  | cons c cs ih =>
    intro a
    cases ht : Lazy.tolerates a c with
    | false => simpa [Lazy.toleratedCount, ht] using ih (Lazy.stepAdapter a c)
    | true =>
      have hin : (Lazy.stepAdapter a c).initiated = true := by
        rw [lazy_step_initiated, ht, Bool.or_true]
      simp [Lazy.toleratedCount, ht, lazy_toleratedCount_eq_zero cs _ hin]

/-- Counterexample to claim C1 as stated: the lazy adapter's `SavePolicy`
never sets the `initiated` flag, so on a freshly constructed adapter a fully
successful `SavePolicy` followed by a `LoadPolicy` that hits the blob-not-found
condition still returns success (the not-found is tolerated) instead of the
blob-not-found error the claim requires after a successful save. -/
theorem claim_C1_counterexample :
    Lazy.SavePolicy ⟨("container").toList, ("blob").toList, defaultTimeout, false⟩
        [] [] (Except.ok ()) (Except.ok ()) =
      ((Except.ok (), [StoreOp.createContainer ("container").toList,
          StoreOp.upload ("container").toList ("blob").toList []]),
        ⟨("container").toList, ("blob").toList, defaultTimeout, false⟩) ∧
    Lazy.LoadPolicy ⟨("container").toList, ("blob").toList, defaultTimeout, false⟩
        (Except.error ⟨ErrorCode.blobNotFound⟩) emptyModel =
      (Except.ok emptyModel,
        ⟨("container").toList, ("blob").toList, defaultTimeout, true⟩) := by
  exact ⟨by decide, by decide⟩

/-- Claim C1 (amended): in the lazy version, a not-found download condition is
tolerated at most once over the whole lifetime of an adapter — namely by the
first `LoadPolicy` that hits a not-found condition, regardless of its position
in the call sequence and regardless of prior `SavePolicy` calls — and the
tolerated load returns success with the model left untouched; every later load
hitting a not-found condition returns the matching not-found error.
The current, eager version never tolerates a not-found condition at all. -/
theorem claim_C1_amended_tolerance :
    (∀ (a : Lazy.Adapter) (cs : List Lazy.Call), Lazy.toleratedCount a cs ≤ 1) ∧
    (∀ (a : Lazy.Adapter) (cs : List Lazy.Call), a.initiated = true →
      Lazy.toleratedCount a cs = 0) ∧
    (∀ (a : Lazy.Adapter) (m : Model), a.initiated = false →
      a.container ≠ [] → a.blob ≠ [] →
      Lazy.LoadPolicy a (Except.error ⟨ErrorCode.containerNotFound⟩) m =
        (Except.ok m, { a with initiated := true }) ∧
      Lazy.LoadPolicy a (Except.error ⟨ErrorCode.blobNotFound⟩) m =
        (Except.ok m, { a with initiated := true })) ∧
    (∀ (a : Lazy.Adapter) (m : Model), a.initiated = true →
      a.container ≠ [] → a.blob ≠ [] →
      Lazy.LoadPolicy a (Except.error ⟨ErrorCode.containerNotFound⟩) m =
        (Except.error (GoError.containerDoesNotExist a.container), a) ∧
      Lazy.LoadPolicy a (Except.error ⟨ErrorCode.blobNotFound⟩) m =
        (Except.error (GoError.blobDoesNotExist a.blob), a)) ∧
    (∀ (a : Adapter) (m : Model), a.container ≠ [] → a.blob ≠ [] →
      LoadPolicy a (Except.error ⟨ErrorCode.containerNotFound⟩) m =
        (Except.error (GoError.containerDoesNotExist a.container),
          [StoreOp.download a.container a.blob]) ∧
      LoadPolicy a (Except.error ⟨ErrorCode.blobNotFound⟩) m =
        (Except.error (GoError.blobDoesNotExist a.blob),
          [StoreOp.download a.container a.blob])) := by
  refine ⟨fun a cs => lazy_toleratedCount_le_one cs a,
    fun a cs h => lazy_toleratedCount_eq_zero cs a h, ?_, ?_, ?_⟩
  · intro a m hin hc hb
    constructor <;>
      simp [Lazy.LoadPolicy, Lazy.loadPolicyBlob, checkContainerBlobArguments,
        List.length_eq_zero, hc, hb, hasCode, hin]
  · intro a m hin hc hb
    constructor <;>
      simp [Lazy.LoadPolicy, Lazy.loadPolicyBlob, checkContainerBlobArguments,
        List.length_eq_zero, hc, hb, hasCode, hin]
  · intro a m hc hb
    constructor <;>
      simp [LoadPolicy, loadPolicyBlob, checkContainerBlobArguments,
        List.length_eq_zero, hc, hb, hasCode]

/-- Witness for claim C1 (amended) at a concrete input: with the flag set, a
blob-not-found load surfaces the blob-not-found error. -/
theorem claim_C1_amended_witness :
    Lazy.LoadPolicy ⟨("container").toList, ("blob").toList, defaultTimeout, true⟩
        (Except.error ⟨ErrorCode.blobNotFound⟩) emptyModel =
      (Except.error (GoError.blobDoesNotExist ("blob").toList),
        ⟨("container").toList, ("blob").toList, defaultTimeout, true⟩) :=
  (claim_C1_amended_tolerance.2.2.2.1
    ⟨("container").toList, ("blob").toList, defaultTimeout, true⟩ emptyModel
    rfl (by decide) (by decide)).2

/-- Every list is a name-filter match for itself. -/
theorem isPrefixOf_self (l : Str) : l.isPrefixOf l = true :=
  List.isPrefixOf_iff_prefix.mpr (List.prefix_refl l)

/-- The container listing filtered by the exact name holds the name exactly
when the store has the container. -/
theorem mem_listContainersPage (s : Store) (c : Str) :
    c ∈ listContainersPage s c ↔ c ∈ s.containers := by
  simp [listContainersPage, List.mem_filter, isPrefixOf_self]

/-- The blob listing filtered by the exact name holds the name exactly when
the store has a matching blob entry. -/
theorem mem_listBlobsPage (s : Store) (c b : Str) :
    b ∈ listBlobsPage s c b ↔ ∃ e ∈ s.blobs, e.1 = c ∧ e.2.1 = b := by
  simp only [listBlobsPage, List.mem_map, List.mem_filter, decide_eq_true_eq]
  constructor
  · rintro ⟨e, ⟨he, h1, h2⟩, hx⟩
    exact ⟨e, he, h1, hx⟩
  · rintro ⟨e, he, h1, h2⟩
    exact ⟨e, ⟨he, h1, by rw [h2]; exact isPrefixOf_self b⟩, h2⟩

/-- `getBlob` returns nothing exactly when no matching entry exists. -/
theorem getBlob_eq_none_iff (s : Store) (c b : Str) :
    getBlob s c b = none ↔ ¬ ∃ e ∈ s.blobs, e.1 = c ∧ e.2.1 = b := by
  rw [getBlob, Option.map_eq_none', List.find?_eq_none]
  constructor
  · rintro h ⟨e, he, hp⟩
    exact h e he (by simpa using hp)
  · intro h e he hp
    exact h ⟨e, he, by simpa using hp⟩

/-- `getBlob` after `setBlob` returns the written content. -/
theorem getBlob_setBlob (s : Store) (c b v : Str) :
    getBlob { s with blobs := setBlob s.blobs c b v } c b = some v := by
  have h : ∀ bs : List (Str × Str × Str),
      List.find? (fun e => e.1 = c ∧ e.2.1 = b) (setBlob bs c b v) = some (c, b, v) := by
    intro bs
    induction bs with
    | nil =>
      rw [setBlob]
      exact List.find?_cons_of_pos _ (by simp)
    | cons e t ih =>
      by_cases h : e.1 = c ∧ e.2.1 = b
      · rw [setBlob, if_pos h]
        exact List.find?_cons_of_pos _ (by simp)
      · rw [setBlob, if_neg h, List.find?_cons_of_neg _ (by simpa using h)]
        exact ih
  unfold getBlob
  rw [h s.blobs]
  rfl

/-- The entry written by `setBlob` is a member of the result. -/
theorem mem_setBlob_self (bs : List (Str × Str × Str)) (c b v : Str) :
    (c, b, v) ∈ setBlob bs c b v := by
  induction bs with
  | nil => simp [setBlob]
  | cons e t ih =>
    by_cases h : e.1 = c ∧ e.2.1 = b
    · simp [setBlob, h]
    · simp [setBlob, h, ih]

/-- `createContainerIfNotExist` on an existing container only lists. -/
theorem createContainerIfNotExist_present {s : Store} {c : Str}
    (h : c ∈ s.containers) :
    createContainerIfNotExist s c = (Except.ok s, [StoreOp.listContainers c]) := by
  have hm : c ∈ listContainersPage s c := (mem_listContainersPage s c).mpr h
  simp [createContainerIfNotExist, hm]

/-- `createContainerIfNotExist` on a missing container lists and creates. -/
theorem createContainerIfNotExist_absent {s : Store} {c : Str}
    (h : c ∉ s.containers) :
    createContainerIfNotExist s c =
      (Except.ok { s with containers := s.containers ++ [c] },
        [StoreOp.listContainers c, StoreOp.createContainer c]) := by
  have hm : c ∉ listContainersPage s c := fun hcon =>
    h ((mem_listContainersPage s c).mp hcon)
  simp [createContainerIfNotExist, hm, createContainer, h]

/-- `createBlobIfNotExist` on an existing blob only lists. -/
theorem createBlobIfNotExist_present {s : Store} {c b : Str}
    (h : ∃ e ∈ s.blobs, e.1 = c ∧ e.2.1 = b) :
    createBlobIfNotExist s c b = (Except.ok s, [StoreOp.listBlobs c b]) := by
  have hm : b ∈ listBlobsPage s c b := (mem_listBlobsPage s c b).mpr h
  simp [createBlobIfNotExist, hm]

/-- `createBlobIfNotExist` on a missing blob of an existing container lists
and uploads the empty blob. -/
theorem createBlobIfNotExist_absent {s : Store} {c b : Str}
    (h : ¬ ∃ e ∈ s.blobs, e.1 = c ∧ e.2.1 = b) (hc : c ∈ s.containers) :
    createBlobIfNotExist s c b =
      (Except.ok { s with blobs := setBlob s.blobs c b [] },
        [StoreOp.listBlobs c b, StoreOp.upload c b []]) := by
  have hm : b ∉ listBlobsPage s c b := fun hcon =>
    h ((mem_listBlobsPage s c b).mp hcon)
  simp [createBlobIfNotExist, hm, uploadStream, hc]

/-- Claim C2: constructing an adapter against a store where the target
container or the target blob is absent creates the missing container and
uploads an empty (zero-byte) blob before the constructor returns (absence
decided by exact-name scan of a name-filtered listing); and running the
initialization a second time on the now-existing target never errors and
creates or uploads nothing further.  The three constructors all delegate to
this initialization after their own argument checks. -/
theorem claim_C2_eager_initialization :
    ∀ (s : Store) (container blob : Str),
      Store.WF s → container ≠ [] → blob ≠ [] →
      (container ∉ s.containers ∨ getBlob s container blob = none) →
      newAdapter container blob [] s =
        (Except.ok (⟨container, blob, defaultTimeout⟩,
          ⟨if container ∈ s.containers then s.containers else s.containers ++ [container],
            setBlob s.blobs container blob []⟩),
          if container ∈ s.containers then
            [StoreOp.listContainers container, StoreOp.listBlobs container blob,
              StoreOp.upload container blob []]
          else
            [StoreOp.listContainers container, StoreOp.createContainer container,
              StoreOp.listBlobs container blob, StoreOp.upload container blob []]) ∧
      container ∈
        (if container ∈ s.containers then s.containers else s.containers ++ [container]) ∧
      getBlob
          ⟨if container ∈ s.containers then s.containers else s.containers ++ [container],
            setBlob s.blobs container blob []⟩ container blob = some [] ∧
      initAdapter ⟨container, blob, defaultTimeout⟩
          ⟨if container ∈ s.containers then s.containers else s.containers ++ [container],
            setBlob s.blobs container blob []⟩ =
        (Except.ok
          ⟨if container ∈ s.containers then s.containers else s.containers ++ [container],
            setBlob s.blobs container blob []⟩,
          [StoreOp.listContainers container, StoreOp.listBlobs container blob]) ∧
      (∀ (account : Str) (cred : Credential), account ≠ [] →
        NewAdapter account container blob (some cred) [] s =
          newAdapter container blob [] s) ∧
      (∀ connectionString : Str, connectionString ≠ [] →
        NewAdapterFromConnectionString connectionString container blob [] s =
          newAdapter container blob [] s) ∧
      (∀ account key : Str, account ≠ [] → key ≠ [] →
        NewAdapterFromSharedKeyCredential account key container blob [] s =
          newAdapter container blob [] s) := by
  intro s container blob hwf hc hb habs
  have hchk : checkContainerBlobArguments container blob = none := by
    simp [checkContainerBlobArguments, List.length_eq_zero, hc, hb]
  have hsecond : ∀ s₂ : Store, container ∈ s₂.containers →
      (∃ e ∈ s₂.blobs, e.1 = container ∧ e.2.1 = blob) →
      initAdapter ⟨container, blob, defaultTimeout⟩ s₂ =
        (Except.ok s₂,
          [StoreOp.listContainers container, StoreOp.listBlobs container blob]) := by
    intro s₂ hin₂ hee₂
    simp only [initAdapter, createContainerIfNotExist_present hin₂,
      createBlobIfNotExist_present hee₂, List.singleton_append]
  have hdeleg :
      (∀ (account : Str) (cred : Credential), account ≠ [] →
        NewAdapter account container blob (some cred) [] s =
          newAdapter container blob [] s) ∧
      (∀ connectionString : Str, connectionString ≠ [] →
        NewAdapterFromConnectionString connectionString container blob [] s =
          newAdapter container blob [] s) ∧
      (∀ account key : Str, account ≠ [] → key ≠ [] →
        NewAdapterFromSharedKeyCredential account key container blob [] s =
          newAdapter container blob [] s) := by
    refine ⟨?_, ?_, ?_⟩
    · intro account cred ha
      simp [NewAdapter, checkAccountCredentialsArguments, List.length_eq_zero, ha]
    · intro connectionString hcs
      simp [NewAdapterFromConnectionString, List.length_eq_zero, hcs]
    · intro account key ha hk
      simp [NewAdapterFromSharedKeyCredential, checkAccountKeyArguments,
        List.length_eq_zero, ha, hk]
  by_cases hin : container ∈ s.containers
  · have hgn : getBlob s container blob = none := by
      rcases habs with h | h
      · exact absurd hin h
      · exact h
    have hnoe : ¬ ∃ e ∈ s.blobs, e.1 = container ∧ e.2.1 = blob :=
      (getBlob_eq_none_iff s container blob).mp hgn
    have hee₂ : ∃ e ∈ setBlob s.blobs container blob [], e.1 = container ∧ e.2.1 = blob :=
      ⟨(container, blob, []), mem_setBlob_self _ _ _ _, rfl, rfl⟩
    refine ⟨?_, ?_, ?_, ?_, hdeleg⟩
    · simp only [if_pos hin]
      simp only [newAdapter, hchk, List.foldl_nil, initAdapter,
        createContainerIfNotExist_present hin,
        createBlobIfNotExist_absent hnoe hin, List.singleton_append]
    · simp [hin]
    · simp only [if_pos hin]
      exact getBlob_setBlob s container blob []
    · simp only [if_pos hin]
      exact hsecond _ hin hee₂
  · have hnoe : ¬ ∃ e ∈ s.blobs, e.1 = container ∧ e.2.1 = blob := by
      rintro ⟨e, he, h1, _⟩
      exact hin (h1 ▸ hwf e he)
    have hin₁ : container ∈ s.containers ++ [container] := by simp
    have hee₂ : ∃ e ∈ setBlob s.blobs container blob [], e.1 = container ∧ e.2.1 = blob :=
      ⟨(container, blob, []), mem_setBlob_self _ _ _ _, rfl, rfl⟩
    refine ⟨?_, ?_, ?_, ?_, hdeleg⟩
    · simp only [if_neg hin]
      simp only [newAdapter, hchk, List.foldl_nil, initAdapter,
        createContainerIfNotExist_absent hin,
        createBlobIfNotExist_absent
          (s := { s with containers := s.containers ++ [container] }) hnoe hin₁,
        List.cons_append, List.singleton_append, List.nil_append]
    · simp [hin]
    · simp only [if_neg hin]
      exact getBlob_setBlob { s with containers := s.containers ++ [container] }
        container blob []
    · simp only [if_neg hin]
      exact hsecond _ (by simp) hee₂

/-- Witness for claim C2 at a concrete input: construction against the empty
store creates the container and uploads the empty blob. -/
theorem claim_C2_witness :
    newAdapter ("c").toList ("b").toList [] ⟨[], []⟩ =
      (Except.ok (⟨("c").toList, ("b").toList, defaultTimeout⟩,
        ⟨if ("c").toList ∈ ([] : List Str) then [] else [] ++ [("c").toList],
          setBlob [] ("c").toList ("b").toList []⟩),
        if ("c").toList ∈ ([] : List Str) then
          [StoreOp.listContainers ("c").toList,
            StoreOp.listBlobs ("c").toList ("b").toList,
            StoreOp.upload ("c").toList ("b").toList []]
        else
          [StoreOp.listContainers ("c").toList, StoreOp.createContainer ("c").toList,
            StoreOp.listBlobs ("c").toList ("b").toList,
            StoreOp.upload ("c").toList ("b").toList []]) :=
  (claim_C2_eager_initialization ⟨[], []⟩ ("c").toList ("b").toList
    (by intro e he; exact absurd he (List.not_mem_nil e)) (by decide) (by decide)
    (Or.inl (List.not_mem_nil _))).1

/-- Claim C10: when the target container exists and the blob listing returns
an exact-name match, adapter construction issues no `CreateContainer` and no
`UploadStream` call and leaves the store — in particular the existing policy
document's bytes — unchanged; the empty-object upload happens exactly when no
exact-name match is listed. -/
theorem claim_C10_construction_frame :
    ∀ (s : Store) (container blob v : Str),
      Store.WF s → container ≠ [] → blob ≠ [] →
      getBlob s container blob = some v →
      (newAdapter container blob [] s =
        (Except.ok (⟨container, blob, defaultTimeout⟩, s),
          [StoreOp.listContainers container, StoreOp.listBlobs container blob])) ∧
      (∀ s' : Store, Store.WF s' →
        (StoreOp.upload container blob [] ∈
            (initAdapter ⟨container, blob, defaultTimeout⟩ s').2 ↔
          getBlob s' container blob = none)) := by
  intro s container blob v hwf hc hb hgb
  have hchk : checkContainerBlobArguments container blob = none := by
    simp [checkContainerBlobArguments, List.length_eq_zero, hc, hb]
  have hee : ∃ e ∈ s.blobs, e.1 = container ∧ e.2.1 = blob := by
    by_contra hne
    rw [(getBlob_eq_none_iff s container blob).mpr hne] at hgb
    exact Option.noConfusion hgb
  have hin : container ∈ s.containers := by
    rcases hee with ⟨e, he, h1, _⟩
    exact h1 ▸ hwf e he
  constructor
  · simp only [newAdapter, hchk, List.foldl_nil, initAdapter,
      createContainerIfNotExist_present hin, createBlobIfNotExist_present hee,
      List.singleton_append]
  · intro s' hwf'
    by_cases hin' : container ∈ s'.containers
    · by_cases hee' : ∃ e ∈ s'.blobs, e.1 = container ∧ e.2.1 = blob
      · simp only [initAdapter, createContainerIfNotExist_present hin',
          createBlobIfNotExist_present hee']
        simp [getBlob_eq_none_iff, hee']
      · simp only [initAdapter, createContainerIfNotExist_present hin',
          createBlobIfNotExist_absent hee' hin']
        simp [getBlob_eq_none_iff, hee']
    · have hee' : ¬ ∃ e ∈ s'.blobs, e.1 = container ∧ e.2.1 = blob := by
        rintro ⟨e, he, h1, _⟩
        exact hin' (h1 ▸ hwf' e he)
      have hin₁ : container ∈ s'.containers ++ [container] := by simp
      simp only [initAdapter, createContainerIfNotExist_absent hin',
        createBlobIfNotExist_absent
          (s := { s' with containers := s'.containers ++ [container] }) hee' hin₁]
      simp [getBlob_eq_none_iff, hee']

/-- Witness for claim C10 at a concrete input: with container and blob
present, construction only issues the two listings. -/
theorem claim_C10_witness :
    newAdapter ("c").toList ("b").toList []
        ⟨[("c").toList], [(("c").toList, ("b").toList, ("doc").toList)]⟩ =
      (Except.ok (⟨("c").toList, ("b").toList, defaultTimeout⟩,
        ⟨[("c").toList], [(("c").toList, ("b").toList, ("doc").toList)]⟩),
        [StoreOp.listContainers ("c").toList,
          StoreOp.listBlobs ("c").toList ("b").toList]) :=
  (claim_C10_construction_frame
    ⟨[("c").toList], [(("c").toList, ("b").toList, ("doc").toList)]⟩
    ("c").toList ("b").toList ("doc").toList
    (by intro e he; simp at he; simp [he]) (by decide) (by decide) (by decide)).1

/-!
### Round-trip development (claim C3)
-/

/-- A whitespace character differs from every non-whitespace character. -/
theorem ne_of_whitespace {c d : Char} (h : c.isWhitespace = true)
    (hd : d.isWhitespace = false) : c ≠ d := by
  intro e
  rw [e, hd] at h
  exact Bool.noConfusion h

/-- `splitOnChar` never returns the empty list of pieces. -/
theorem splitOnChar_ne_nil (sep : Char) (s : Str) : splitOnChar sep s ≠ [] := by
  cases s with
  | nil => simp [splitOnChar]
  | cons c cs =>
    cases hs : splitOnChar sep cs with
    | nil => simp [splitOnChar, hs]
    | cons h t =>
      simp only [splitOnChar, hs]
      split <;> simp

/-- Splitting a string that starts with the separator emits an empty piece. -/
theorem splitOnChar_cons_sep (sep : Char) (rest : Str) :
    splitOnChar sep (sep :: rest) = [] :: splitOnChar sep rest := by
  simp only [splitOnChar]
  cases hs : splitOnChar sep rest with
  | nil => exact absurd hs (splitOnChar_ne_nil sep rest)
  | cons h t => simp

/-- A non-separator head character joins the first piece. -/
theorem splitOnChar_cons_ne (sep : Char) {c : Char} (h : c ≠ sep) (rest : Str) :
    splitOnChar sep (c :: rest) = (splitOnChar sep rest).modifyHead (c :: ·) := by
  simp only [splitOnChar]
  cases hs : splitOnChar sep rest with
  | nil => exact absurd hs (splitOnChar_ne_nil sep rest)
  | cons hh t => simp [h]

/-- Splitting a separator-free string yields that single piece. -/
theorem splitOnChar_of_not_mem (sep : Char) {l : Str} (h : sep ∉ l) :
    splitOnChar sep l = [l] := by
  induction l with
  | nil => rfl
  | cons c l' ih =>
    have hc : c ≠ sep := fun e => h (e ▸ List.mem_cons_self c l')
    rw [splitOnChar_cons_ne sep hc, ih (fun hm => h (List.mem_cons_of_mem c hm))]
    simp

/-- The first separator after a separator-free chunk cuts exactly there. -/
theorem splitOnChar_append_cons (sep : Char) {l : Str} (rest : Str) (h : sep ∉ l) :
    splitOnChar sep (l ++ sep :: rest) = l :: splitOnChar sep rest := by
  induction l with
  | nil => simpa using splitOnChar_cons_sep sep rest
  | cons c l' ih =>
    have hc : c ≠ sep := fun e => h (e ▸ List.mem_cons_self c l')
    rw [List.cons_append, splitOnChar_cons_ne sep hc,
      ih (fun hm => h (List.mem_cons_of_mem c hm))]
    simp

/-- Trailing trimming commutes with a non-whitespace head character. -/
theorem trimRightWs_cons_of_not_ws {c : Char} (h : c.isWhitespace = false)
    (t : Str) : trimRightWs (c :: t) = c :: trimRightWs t := by
  unfold trimRightWs
  rw [List.reverse_cons, List.dropWhile_append]
  cases he : (t.reverse.dropWhile Char.isWhitespace).isEmpty with
  | true => simp_all [List.isEmpty_iff, List.dropWhile_cons, h]
  | false => simp_all [List.isEmpty_iff]

/-- Trailing trimming absorbs a trailing whitespace character. -/
theorem trimRightWs_append_ws {c : Char} (h : c.isWhitespace = true) (t : Str) :
    trimRightWs (t ++ [c]) = trimRightWs t := by
  unfold trimRightWs
  rw [List.reverse_append]
  simp [List.dropWhile_cons, h]

/-- A string whose last character is not whitespace needs no trailing trim. -/
theorem trimRightWs_eq_self_of_last {s : Str} {c : Char} (hl : s.getLast? = some c)
    (h : c.isWhitespace = false) : trimRightWs s = s := by
  unfold trimRightWs
  rw [List.getLast?_eq_head?_reverse] at hl
  cases hr : s.reverse with
  | nil => rw [hr] at hl; exact Option.noConfusion hl
  | cons c' rest =>
    rw [hr] at hl
    have hc' : c' = c := by simpa using hl
    have h' : c'.isWhitespace = false := by rw [hc']; exact h
    rw [List.dropWhile_cons, h']
    simp only [Bool.false_eq_true, if_false]
    rw [← hr, List.reverse_reverse]

/-- Leading whitespace characters are dropped by `goTrimSpace`. -/
theorem goTrimSpace_cons_ws {c : Char} (h : c.isWhitespace = true) (t : Str) :
    goTrimSpace (c :: t) = goTrimSpace t := by
  simp [goTrimSpace, List.dropWhile_cons, h]

/-- A string whose first and last characters are not whitespace is untouched
by `goTrimSpace`. -/
theorem goTrimSpace_eq_self_of {s : Str} {c d : Char} (hh : s.head? = some c)
    (hc : c.isWhitespace = false) (hl : s.getLast? = some d)
    (hd : d.isWhitespace = false) : goTrimSpace s = s := by
  cases s with
  | nil => exact Option.noConfusion hh
  | cons c' t =>
    have hc' : c' = c := by simpa using hh
    unfold goTrimSpace
    rw [List.dropWhile_cons, hc', hc]
    simp only [Bool.false_eq_true, if_false]
    exact trimRightWs_eq_self_of_last (hc' ▸ hl) hd

/-- Trailing trimming never lengthens a string. -/
theorem length_trimRightWs_le (s : Str) : (trimRightWs s).length ≤ s.length := by
  unfold trimRightWs
  rw [List.length_reverse]
  calc (s.reverse.dropWhile Char.isWhitespace).length
      ≤ s.reverse.length := (List.dropWhile_suffix _).length_le
    _ = s.length := List.length_reverse s

/-- Trimming never lengthens a string. -/
theorem length_goTrimSpace_le (s : Str) : (goTrimSpace s).length ≤ s.length := by
  unfold goTrimSpace
  calc (trimRightWs (s.dropWhile Char.isWhitespace)).length
      ≤ (s.dropWhile Char.isWhitespace).length := length_trimRightWs_le _
    _ ≤ s.length := (List.dropWhile_suffix _).length_le

/-- A trim-invariant string does not end in whitespace. -/
theorem last_not_ws_of_trim_eq {f : Str} (h : goTrimSpace f = f) {d : Char}
    (hl : f.getLast? = some d) : d.isWhitespace = false := by
  by_contra hws
  rw [Bool.not_eq_false] at hws
  have hdw : f.dropWhile Char.isWhitespace = f := by
    refine (List.dropWhile_suffix _).eq_of_length (Nat.le_antisymm
      (List.IsSuffix.length_le (List.dropWhile_suffix _)) ?_)
    calc f.length = (goTrimSpace f).length := by rw [h]
      _ ≤ (f.dropWhile Char.isWhitespace).length := length_trimRightWs_le _
  have htr : trimRightWs f = f := by
    have := h
    rw [goTrimSpace, hdw] at this
    exact this
  rw [List.getLast?_eq_head?_reverse] at hl
  cases hr : f.reverse with
  | nil => rw [hr] at hl; exact Option.noConfusion hl
  | cons c' rest =>
    rw [hr] at hl
    have hc' : c' = d := by simpa using hl
    have hlen : (trimRightWs f).length ≤ rest.length := by
      unfold trimRightWs
      rw [hr, List.length_reverse, List.dropWhile_cons, hc', hws]
      simp only [if_true]
      exact (List.dropWhile_suffix _).length_le
    rw [htr] at hlen
    have : f.length = rest.length + 1 := by
      have := congrArg List.length hr
      simpa [List.length_reverse] using this
    omega

/-- A non-empty trim-invariant string does not start with whitespace. -/
theorem head_not_ws_of_trim_eq {f : Str} (h : goTrimSpace f = f) {c : Char}
    (hh : f.head? = some c) : c.isWhitespace = false := by
  by_contra hws
  rw [Bool.not_eq_false] at hws
  cases f with
  | nil => exact Option.noConfusion hh
  | cons c' t =>
    have hc' : c' = c := by simpa using hh
    have hlen : (goTrimSpace (c' :: t)).length ≤ t.length := by
      rw [hc', goTrimSpace_cons_ws hws]
      exact Nat.le_trans (length_goTrimSpace_le t) (Nat.le_refl _)
    rw [h] at hlen
    simp only [List.length_cons] at hlen
    omega

/-- `dropCR` is the identity on lines that do not end in a carriage return. -/
theorem dropCR_eq_self {l : Str} (h : l.getLast? ≠ some '\r') : dropCR l = l := by
  simp [dropCR, h]

/-- `joinSep` on a list of at least two fields, unfolded once. -/
theorem joinSep_cons_cons (sep f g : Str) (t : List Str) :
    joinSep sep (f :: g :: t) = f ++ sep ++ joinSep sep (g :: t) := rfl

/-- A character in neither the separator nor any field is not in the join. -/
theorem not_mem_joinSep {c : Char} {sep : Str} (hc : c ∉ sep) :
    ∀ {fs : List Str}, (∀ f ∈ fs, c ∉ f) → c ∉ joinSep sep fs := by
  intro fs
  induction fs with
  | nil => intro _; simp [joinSep]
  | cons f fs ih =>
    intro h
    cases fs with
    | nil => simpa [joinSep] using h f (List.mem_cons_self f [])
    | cons g t =>
      rw [joinSep_cons_cons]
      intro hm
      rcases List.mem_append.mp hm with hm' | hm'
      · rcases List.mem_append.mp hm' with hm'' | hm''
        · exact h f (List.mem_cons_self f _) hm''
        · exact hc hm''
      · exact ih (fun x hx => h x (List.mem_cons_of_mem f hx)) hm'

/-- The last character of a join whose final field is non-empty is that
field's last character. -/
theorem joinSep_getLast? (sep : Str) :
    ∀ (fs : List Str) (fl : Str), fs.getLast? = some fl → fl ≠ [] →
      (joinSep sep fs).getLast? = fl.getLast? := by
  intro fs
  induction fs with
  | nil => intro fl h _; exact Option.noConfusion h
  | cons f fs ih =>
    intro fl h hne
    cases fs with
    | nil =>
      have : f = fl := by simpa using h
      rw [joinSep, this]
    | cons g t =>
      have hlast : (g :: t).getLast? = some fl := by
        rw [← h, List.getLast?_cons_cons]
      have hrec : (joinSep sep (g :: t)).getLast? = fl.getLast? := ih fl hlast hne
      have hfl : ∃ d, fl.getLast? = some d := by
        cases hfl' : fl.getLast? with
        | none => rw [List.getLast?_eq_none_iff] at hfl'; exact absurd hfl' hne
        | some d => exact ⟨d, rfl⟩
      rcases hfl with ⟨d, hd⟩
      rw [joinSep_cons_cons, List.append_assoc, List.getLast?_append,
        List.getLast?_append, hrec, hd]
      rfl

/-- Splitting the comma-join of comma-free fields recovers the fields, each
non-first one carrying the separator's space. -/
theorem splitOnChar_joinSep (f : Str) (fs : List Str) (hf : ',' ∉ f)
    (hfs : ∀ g ∈ fs, ',' ∉ g) :
    splitOnChar ',' (joinSep (", ").toList (f :: fs)) =
      f :: fs.map (fun g => ' ' :: g) := by
  induction fs generalizing f with
  | nil => simp [joinSep, splitOnChar_of_not_mem ',' hf]
  | cons g gs ih =>
    have hsep : joinSep (", ").toList (f :: g :: gs) =
        f ++ ',' :: ' ' :: joinSep (", ").toList (g :: gs) := by
      rw [joinSep_cons_cons]
      simp
    rw [hsep, splitOnChar_append_cons ',' _ hf,
      splitOnChar_cons_ne ',' (by decide),
      ih g (hfs g (List.mem_cons_self g gs))
        (fun x hx => hfs x (List.mem_cons_of_mem g hx))]
    simp

/-- A non-empty list has a last element. -/
theorem getLast?_isSome_of_ne_nil {α : Type} {l : List α} (h : l ≠ []) :
    ∃ x, l.getLast? = some x ∧ x ∈ l :=
  ⟨l.getLast h, List.getLast?_eq_getLast l h, List.getLast_mem h⟩

/-- Parsing an encoded rule line yields the tag and the original fields. -/
theorem parse_ruleLine {c : Char} {k : Str} {r : Rule} (hk : CleanKey c k)
    (hr : CleanRule r) :
    (splitOnChar ',' (ruleLine k r)).map goTrimSpace = k :: r := by
  rcases hr with ⟨hrne, hrcl, _⟩
  rcases hk with ⟨hkh, hkcomma, hknl, hktrim⟩
  cases r with
  | nil => exact absurd rfl hrne
  | cons f fs =>
    have hline : ruleLine k (f :: fs) =
        k ++ ',' :: ' ' :: joinSep (", ").toList (f :: fs) := by
      rw [ruleLine]
      simp
    have hmap : ∀ g ∈ fs, (goTrimSpace ∘ fun g => ' ' :: g) g = id g := by
      intro g hg
      simp only [Function.comp_apply, id]
      rw [goTrimSpace_cons_ws (by decide)]
      exact (hrcl g (List.mem_cons_of_mem f hg)).2.2
    rw [hline, splitOnChar_append_cons ',' _ hkcomma,
      splitOnChar_cons_ne ',' (by decide),
      splitOnChar_joinSep f fs (hrcl f (List.mem_cons_self f fs)).1
        (fun g hg => (hrcl g (List.mem_cons_of_mem f hg)).1)]
    simp only [List.modifyHead_cons, List.map_cons, List.map_map, hktrim]
    rw [goTrimSpace_cons_ws (by decide), (hrcl f (List.mem_cons_self f fs)).2.2,
      List.map_congr_left hmap, List.map_id]

/-- The last character of an encoded rule line is not whitespace. -/
theorem ruleLine_getLast {k : Str} {r : Rule} (hr : CleanRule r) :
    ∃ d, (ruleLine k r).getLast? = some d ∧ d.isWhitespace = false := by
  rcases hr with ⟨hrne, hrcl, hrlast⟩
  rcases getLast?_isSome_of_ne_nil hrne with ⟨fl, hfl, hflmem⟩
  have hflne : fl ≠ [] := fun e => hrlast (by rw [hfl, e])
  rcases getLast?_isSome_of_ne_nil hflne with ⟨d, hdl, _⟩
  have hdw : d.isWhitespace = false :=
    last_not_ws_of_trim_eq (hrcl fl hflmem).2.2 hdl
  refine ⟨d, ?_, hdw⟩
  rw [ruleLine, List.getLast?_append, joinSep_getLast? _ r fl hfl hflne, hdl]
  rfl

/-- The whole-line trim of an encoded rule line is the identity. -/
theorem goTrimSpace_ruleLine {c : Char} {k : Str} {r : Rule} (hk : CleanKey c k)
    (hr : CleanRule r) (hc : c.isWhitespace = false) :
    goTrimSpace (ruleLine k r) = ruleLine k r := by
  rcases ruleLine_getLast (k := k) hr with ⟨d, hd, hdw⟩
  have hh : (ruleLine k r).head? = some c := by
    cases k with
    | nil => exact absurd hk.1 (by simp)
    | cons c' k' =>
      have hc' : c' = c := by simpa using hk.1
      rw [ruleLine]
      simp [hc']
  exact goTrimSpace_eq_self_of hh hc hd hdw

/-- The head character of an encoded rule line is the tag's head. -/
theorem ruleLine_head? {c : Char} {k : Str} (hk : k.head? = some c) (r : Rule) :
    (ruleLine k r).head? = some c := by
  cases k with
  | nil => exact absurd hk (by simp)
  | cons c' k' =>
    have hc' : c' = c := by simpa using hk
    rw [ruleLine]
    simp [hc']

/-- The standard handler maps a trimmed encoded rule line to the expected
model update. -/
theorem loadPolicyLine_ruleLine {c : Char} {k : Str} {r : Rule}
    (hk : CleanKey c k) (hr : CleanRule r) (hpg : c = 'p' ∨ c = 'g') (m : Model) :
    loadPolicyLine (goTrimSpace (ruleLine k r)) m = Except.ok (modelAdd m k r) := by
  have hcws : c.isWhitespace = false := by
    rcases hpg with rfl | rfl <;> decide
  have hhead := ruleLine_head? hk.1 r
  have hne : ¬(ruleLine k r = [] ∨ (ruleLine k r).head? = some '#') := by
    rintro (he | hh')
    · rw [he] at hhead
      simp at hhead
    · rw [hh'] at hhead
      have hc' : '#' = c := by simpa using hhead
      rcases hpg with rfl | rfl <;> exact absurd hc' (by decide)
  rw [goTrimSpace_ruleLine hk hr hcws, loadPolicyLine, if_neg hne,
    parse_ruleLine hk hr]
  rcases hpg with rfl | rfl <;> simp [modelAdd, hk.1]

/-- The scan loop over encoded rule lines folds the model updates, with no
handler error. -/
theorem processLines_ruleLines (prs : List (Str × Rule)) :
    ∀ (m : Model),
      (∀ pr ∈ prs, (CleanKey 'p' pr.1 ∨ CleanKey 'g' pr.1) ∧ CleanRule pr.2) →
      processLines loadPolicyLine (prs.map (fun pr => ruleLine pr.1 pr.2)) m =
        Except.ok (prs.foldl (fun mm pr => modelAdd mm pr.1 pr.2) m) := by
  induction prs with
  | nil => intro m _; rfl
  | cons pr prs ih =>
    intro m h
    rcases h pr (List.mem_cons_self pr prs) with ⟨hk, hr⟩
    have hline : loadPolicyLine (goTrimSpace (ruleLine pr.1 pr.2)) m =
        Except.ok (modelAdd m pr.1 pr.2) := by
      rcases hk with hk | hk
      · exact loadPolicyLine_ruleLine hk hr (Or.inl rfl) m
      · exact loadPolicyLine_ruleLine hk hr (Or.inr rfl) m
    simp only [List.map_cons, processLines, hline, List.foldl_cons]
    exact ih _ (fun x hx => h x (List.mem_cons_of_mem _ hx))

/-- Folding updates whose tags start with `p` only touches the `p` section. -/
theorem foldl_modelAdd_section_p (prs : List (Str × Rule)) :
    ∀ (m : Model), (∀ pr ∈ prs, pr.1.head? = some 'p') →
      prs.foldl (fun mm pr => modelAdd mm pr.1 pr.2) m =
        ⟨prs.foldl (fun am pr => assertionMapAdd am pr.1 pr.2) m.p, m.g⟩ := by
  induction prs with
  | nil => intro m _; rfl
  | cons pr prs ih =>
    intro m h
    have hh := h pr (List.mem_cons_self pr prs)
    have hstep : modelAdd m pr.1 pr.2 =
        ⟨assertionMapAdd m.p pr.1 pr.2, m.g⟩ := by
      simp [modelAdd, hh]
    simp only [List.foldl_cons, hstep]
    exact ih _ (fun x hx => h x (List.mem_cons_of_mem _ hx))

/-- Folding updates whose tags start with `g` only touches the `g` section. -/
theorem foldl_modelAdd_section_g (prs : List (Str × Rule)) :
    ∀ (m : Model), (∀ pr ∈ prs, pr.1.head? = some 'g') →
      prs.foldl (fun mm pr => modelAdd mm pr.1 pr.2) m =
        ⟨m.p, prs.foldl (fun am pr => assertionMapAdd am pr.1 pr.2) m.g⟩ := by
  induction prs with
  | nil => intro m _; rfl
  | cons pr prs ih =>
    intro m h
    have hh := h pr (List.mem_cons_self pr prs)
    have hstep : modelAdd m pr.1 pr.2 =
        ⟨m.p, assertionMapAdd m.g pr.1 pr.2⟩ := by
      simp [modelAdd, hh]
    simp only [List.foldl_cons, hstep]
    exact ih _ (fun x hx => h x (List.mem_cons_of_mem _ hx))

/-- Adding a rule under a tag absent from the map appends a new entry. -/
theorem assertionMapAdd_absent (k : Str) (r : Rule) :
    ∀ (am : AssertionMap), k ∉ am.map Prod.fst →
      assertionMapAdd am k r = am ++ [(k, ⟨[r]⟩)] := by
  intro am
  induction am with
  | nil => intro _; rfl
  | cons e t ih =>
    intro h
    obtain ⟨k', a'⟩ := e
    simp only [List.map_cons, List.mem_cons, not_or] at h
    rw [assertionMapAdd, if_neg (fun e' => h.1 e'.symm), ih h.2]
    rfl

/-- Adding a rule under a present tag appends to that entry's rule list. -/
theorem assertionMapAdd_present (k : Str) (r : Rule) (a : Assertion)
    (post : AssertionMap) :
    ∀ (pre : AssertionMap), k ∉ pre.map Prod.fst →
      assertionMapAdd (pre ++ (k, a) :: post) k r =
        pre ++ (k, ⟨a.policy ++ [r]⟩) :: post := by
  intro pre
  induction pre with
  | nil =>
    intro _
    simp only [List.nil_append]
    rw [assertionMapAdd, if_pos rfl]
  | cons e t ih =>
    intro h
    obtain ⟨k', a'⟩ := e
    simp only [List.map_cons, List.mem_cons, not_or] at h
    rw [List.cons_append, assertionMapAdd, if_neg (fun e' => h.1 e'.symm), ih h.2]
    rfl

/-- Folding the rules of one tag onto its existing entry appends them all. -/
theorem foldl_assertionMapAdd_rules (k : Str) (post : AssertionMap) :
    ∀ (rs : List Rule) (pre : AssertionMap) (a : Assertion),
      k ∉ pre.map Prod.fst →
      rs.foldl (fun am r => assertionMapAdd am k r) (pre ++ (k, a) :: post) =
        pre ++ (k, ⟨a.policy ++ rs⟩) :: post := by
  intro rs
  induction rs with
  | nil =>
    intro pre a _
    simp
  | cons r rs' ih =>
    intro pre a h
    rw [List.foldl_cons, assertionMapAdd_present k r a post pre h,
      ih pre ⟨a.policy ++ [r]⟩ h]
    simp [List.append_assoc]

/-- Folding a non-empty rule block under a fresh tag appends one entry
holding exactly those rules. -/
theorem foldl_assertionMapAdd_block (k : Str) (rs : List Rule)
    (acc : AssertionMap) (h : k ∉ acc.map Prod.fst) (hne : rs ≠ []) :
    rs.foldl (fun am r => assertionMapAdd am k r) acc = acc ++ [(k, ⟨rs⟩)] := by
  cases rs with
  | nil => exact absurd rfl hne
  | cons r rs' =>
    rw [List.foldl_cons, assertionMapAdd_absent k r acc h,
      show acc ++ [(k, (⟨[r]⟩ : Assertion))] =
        acc ++ (k, (⟨[r]⟩ : Assertion)) :: [] from rfl,
      foldl_assertionMapAdd_rules k [] rs' acc ⟨[r]⟩ h]
    simp

/-- Every serialized pair of a section comes from one of its entries. -/
theorem mem_sectionPairs {pr : Str × Rule} {seq : AssertionMap}
    (h : pr ∈ sectionPairs seq) : ∃ e ∈ seq, pr.1 = e.1 ∧ pr.2 ∈ e.2.policy := by
  simp only [sectionPairs, List.mem_flatMap, List.mem_map] at h
  rcases h with ⟨e, he, r, hr, hpr⟩
  exact ⟨e, he, by rw [← hpr], by rw [← hpr]; exact hr⟩

/-- Folding all serialized pairs of a section rebuilds the section behind the
accumulator. -/
theorem foldl_sectionPairs (seq : AssertionMap) :
    ∀ (acc : AssertionMap),
      (acc.map Prod.fst ++ seq.map Prod.fst).Nodup →
      (∀ e ∈ seq, e.2.policy ≠ []) →
      (sectionPairs seq).foldl (fun am pr => assertionMapAdd am pr.1 pr.2) acc =
        acc ++ seq := by
  induction seq with
  | nil => intro acc _ _; simp [sectionPairs]
  | cons e t ih =>
    intro acc hnd hpol
    obtain ⟨k, a⟩ := e
    have hkacc : k ∉ acc.map Prod.fst := by
      rcases List.nodup_append.mp hnd with ⟨_, _, hdisj⟩
      intro hm
      have hkm : k ∈ ((k, a) :: t).map Prod.fst := by
        rw [List.map_cons]
        exact List.mem_cons_self k _
      exact hdisj hm hkm
    have hpairs : sectionPairs ((k, a) :: t) =
        a.policy.map (fun r => (k, r)) ++ sectionPairs t := by
      simp [sectionPairs, List.flatMap_cons]
    rw [hpairs, List.foldl_append, List.foldl_map,
      foldl_assertionMapAdd_block k a.policy acc hkacc
        (hpol (k, a) (List.mem_cons_self _ _)),
      ih (acc ++ [(k, a)]) (by simpa using hnd)
        (fun x hx => hpol x (List.mem_cons_of_mem _ hx))]
    simp

/-- Trailing-newline trimming absorbs one appended newline. -/
theorem goTrimRightNl_append_nl (s : Str) :
    goTrimRightNl (s ++ '\n' :: []) = goTrimRightNl s := by
  unfold goTrimRightNl
  rw [List.reverse_append]
  simp [List.dropWhile_cons]

/-- A string not ending in a newline needs no trailing-newline trim. -/
theorem goTrimRightNl_eq_self_of_last {s : Str} {c : Char}
    (hl : s.getLast? = some c) (h : c ≠ '\n') : goTrimRightNl s = s := by
  unfold goTrimRightNl
  rw [List.getLast?_eq_head?_reverse] at hl
  cases hr : s.reverse with
  | nil => rw [hr] at hl; exact Option.noConfusion hl
  | cons c' rest =>
    rw [hr] at hl
    have hc' : c' = c := by simpa using hl
    rw [List.dropWhile_cons, if_neg (by simp [hc', h]), ← hr,
      List.reverse_reverse]

/-- A non-empty newline-terminated document is the newline-join plus one final
newline. -/
theorem rawDoc_eq_joinSep (l : Str) (ls : List Str) :
    rawDoc (l :: ls) = joinSep ('\n' :: []) (l :: ls) ++ '\n' :: [] := by
  induction ls generalizing l with
  | nil => simp [rawDoc, joinSep]
  | cons l' ls' ih =>
    rw [rawDoc, ih l', joinSep_cons_cons]
    simp

/-- Splitting the newline-join of newline-free lines recovers the lines. -/
theorem splitOnChar_joinSep_nl :
    ∀ (ls : List Str), (∀ l ∈ ls, '\n' ∉ l) →
      ls ≠ [] → splitOnChar '\n' (joinSep ('\n' :: []) ls) = ls := by
  intro ls
  induction ls with
  | nil => intro _ h; exact absurd rfl h
  | cons l ls ih =>
    intro h _
    cases ls with
    | nil => exact splitOnChar_of_not_mem '\n' (h l (List.mem_cons_self l []))
    | cons l' ls' =>
      have : joinSep ('\n' :: []) (l :: l' :: ls') =
          l ++ '\n' :: joinSep ('\n' :: []) (l' :: ls') := by
        rw [joinSep_cons_cons]
        simp
      rw [this, splitOnChar_append_cons '\n' _ (h l (List.mem_cons_self l _)),
        ih (fun x hx => h x (List.mem_cons_of_mem l hx)) (by simp)]

/-- The newline-join of lines with a non-empty head is non-empty. -/
theorem joinSep_nl_ne_nil {l : Str} (hl : l ≠ []) (ls : List Str) :
    joinSep ('\n' :: []) (l :: ls) ≠ [] := by
  cases ls with
  | nil => exact hl
  | cons l' ls' =>
    rw [joinSep_cons_cons]
    simp [hl]

/-- The newline-join of non-empty newline-free lines does not end in a
newline. -/
theorem joinSep_nl_getLast_ne (ls : List Str)
    (h : ∀ l ∈ ls, l ≠ [] ∧ '\n' ∉ l) (hne : ls ≠ []) :
    ∃ d, (joinSep ('\n' :: []) ls).getLast? = some d ∧ d ≠ '\n' := by
  rcases getLast?_isSome_of_ne_nil hne with ⟨fl, hfl, hmem⟩
  rcases getLast?_isSome_of_ne_nil (h fl hmem).1 with ⟨d, hd, hdm⟩
  refine ⟨d, ?_, ?_⟩
  · rw [joinSep_getLast? _ ls fl hfl (h fl hmem).1, hd]
  · intro e
    exact (h fl hmem).2 (e ▸ hdm)

/-- On a non-empty document without a final newline, the scanner is a plain
split followed by the carriage-return strip. -/
theorem scanLines_eq_of_ne_nil {s : Str} (h : s ≠ [])
    (hl : s.getLast? ≠ some '\n') :
    scanLines s = (splitOnChar '\n' s).map dropCR := by
  cases s with
  | nil => exact absurd rfl h
  | cons c cs => simp [scanLines, hl]

/-- The scanner recovers the lines of a newline-join of clean lines. -/
theorem scanLines_joinSep (ls : List Str)
    (h : ∀ l ∈ ls, l ≠ [] ∧ '\n' ∉ l ∧ l.getLast? ≠ some '\r') (hne : ls ≠ []) :
    scanLines (joinSep ('\n' :: []) ls) = ls := by
  cases ls with
  | nil => exact absurd rfl hne
  | cons l₀ ls' =>
    have hsne : joinSep ('\n' :: []) (l₀ :: ls') ≠ [] :=
      joinSep_nl_ne_nil (h l₀ (List.mem_cons_self l₀ ls')).1 ls'
    rcases joinSep_nl_getLast_ne (l₀ :: ls')
        (fun l hl => ⟨(h l hl).1, (h l hl).2.1⟩) (by simp) with ⟨d, hd, hdn⟩
    have hlast : (joinSep ('\n' :: []) (l₀ :: ls')).getLast? ≠ some '\n' := by
      rw [hd]
      intro e
      exact hdn (by simpa using e)
    rw [scanLines_eq_of_ne_nil hsne hlast,
      splitOnChar_joinSep_nl (l₀ :: ls') (fun l hl => (h l hl).2.1) (by simp)]
    have : ∀ l ∈ l₀ :: ls', dropCR l = l := fun l hl =>
      dropCR_eq_self (h l hl).2.2
    rw [List.map_congr_left (fun l hl => this l hl), List.map_id']

/-- An encoded rule line with a non-empty tag is non-empty. -/
theorem ruleLine_ne_nil {k : Str} (hk : k ≠ []) (r : Rule) :
    ruleLine k r ≠ [] := by
  cases k with
  | nil => exact absurd rfl hk
  | cons c k' => simp [ruleLine]

/-- An encoded rule line over newline-free tag and fields is newline-free. -/
theorem not_nl_mem_ruleLine {k : Str} {r : Rule} (hk : '\n' ∉ k)
    (hr : ∀ f ∈ r, '\n' ∉ f) : '\n' ∉ ruleLine k r := by
  rw [ruleLine]
  intro hm
  rcases List.mem_append.mp hm with hm' | hm'
  · rcases List.mem_append.mp hm' with hm'' | hm''
    · exact hk hm''
    · simp at hm''
  · exact not_mem_joinSep (by decide) hr hm'

/-- Every line of a well-formed section is non-empty, newline-free and does
not end in a carriage return. -/
theorem sectionLines_props {c : Char} {seq : AssertionMap}
    (hcs : CleanSection c seq) :
    ∀ l ∈ sectionLines seq, l ≠ [] ∧ '\n' ∉ l ∧ l.getLast? ≠ some '\r' := by
  intro l hl
  simp only [sectionLines, List.mem_map] at hl
  rcases hl with ⟨pr, hpr, rfl⟩
  rcases mem_sectionPairs hpr with ⟨e, he, h1, h2⟩
  have hkey : CleanKey c pr.1 := h1 ▸ (hcs.2 e he).1
  have hrule : CleanRule pr.2 := (hcs.2 e he).2.2 pr.2 h2
  have hkne : pr.1 ≠ [] := by
    intro e'
    rw [e'] at hkey
    simpa using hkey.1
  refine ⟨ruleLine_ne_nil hkne pr.2, ?_, ?_⟩
  · exact not_nl_mem_ruleLine hkey.2.2.1 (fun f hf => (hrule.2.1 f hf).2.1)
  · rcases ruleLine_getLast (k := pr.1) hrule with ⟨d, hd, hdw⟩
    rw [hd]
    intro e'
    have : d = '\r' := by simpa using e'
    rw [this] at hdw
    exact Bool.noConfusion hdw

/-- A non-empty well-formed section serializes to at least one line. -/
theorem sectionLines_ne_nil {c : Char} {seq : AssertionMap}
    (hcs : CleanSection c seq) (hne : seq ≠ []) : sectionLines seq ≠ [] := by
  cases seq with
  | nil => exact absurd rfl hne
  | cons e t =>
    have hp := (hcs.2 e (List.mem_cons_self e t)).2.1
    cases hpol : e.2.policy with
    | nil => exact absurd hpol hp
    | cons r rs => simp [sectionLines_cons, hpol]

/-- Counterexample to claim C3 as stated: a rule field containing the
separator `", "` does not survive the round trip.  Encoding the model whose
single permission rule is `["a, b"]` and decoding the result yields the rule
`["a","b"]` — a different model, and not a reordering of the original rules. -/
theorem claim_C3_counterexample :
    decodeDoc (encodeModel [(("p").toList, (⟨[[("a, b").toList]]⟩ : Assertion))] []) =
      Except.ok
        (⟨[(("p").toList,
            (⟨[[("a").toList, ("b").toList]]⟩ : Assertion))], []⟩ : Model) ∧
    (⟨[(("p").toList, (⟨[[("a").toList, ("b").toList]]⟩ : Assertion))], []⟩ : Model) ≠
      (⟨[(("p").toList, (⟨[[("a, b").toList]]⟩ : Assertion))], []⟩ : Model) ∧
    ¬ List.Perm ([[("a").toList, ("b").toList]] : List Rule)
        ([[("a, b").toList]] : List Rule) := by
  refine ⟨by decide, by decide, by decide⟩

/-- Claim C3 (amended): for every well-formed policy model — distinct rule-type
tags whose first character matches their section and which are comma-free,
newline-free and trim-invariant; every tag holding at least one rule; every
rule non-empty with comma-free, newline-free, trim-invariant fields, the last
field non-empty — decoding (the `LoadPolicy` line scan with the standard
handler) the exact byte sequence produced by `SavePolicy`'s encoding of the
model yields the model back exactly (hence up to rule order within each rule
type). -/
theorem claim_C3_amended_roundtrip :
    ∀ m : Model, WellFormedModel m →
      decodeDoc (encodeModel m.p m.g) = Except.ok m := by
  intro m hwf
  obtain ⟨hp, hg⟩ := hwf
  by_cases hboth : m.p = [] ∧ m.g = []
  · obtain ⟨mp, mg⟩ := m
    obtain ⟨h1, h2⟩ := hboth
    simp only at h1 h2
    subst h1
    subst h2
    decide
  · have hne : sectionLines m.p ++ sectionLines m.g ≠ [] := by
      intro he
      rcases List.append_eq_nil.mp he with ⟨e1, e2⟩
      refine hboth ⟨?_, ?_⟩
      · by_contra hpne
        exact sectionLines_ne_nil hp hpne e1
      · by_contra hgne
        exact sectionLines_ne_nil hg hgne e2
    have hprops : ∀ l ∈ sectionLines m.p ++ sectionLines m.g,
        l ≠ [] ∧ '\n' ∉ l ∧ l.getLast? ≠ some '\r' := by
      intro l hl
      rcases List.mem_append.mp hl with hl' | hl'
      · exact sectionLines_props hp l hl'
      · exact sectionLines_props hg l hl'
    have henc : encodeModel m.p m.g =
        joinSep ('\n' :: []) (sectionLines m.p ++ sectionLines m.g) := by
      rw [encodeModel_eq_rawDoc]
      cases hl : sectionLines m.p ++ sectionLines m.g with
      | nil => exact absurd hl hne
      | cons l ls =>
        rw [rawDoc_eq_joinSep l ls, goTrimRightNl_append_nl]
        rcases joinSep_nl_getLast_ne (l :: ls)
            (fun x hx => ⟨(hprops x (hl ▸ hx)).1, (hprops x (hl ▸ hx)).2.1⟩)
            (by simp) with ⟨d, hd, hdn⟩
        exact goTrimRightNl_eq_self_of_last hd hdn
    have hcleanP : ∀ pr ∈ sectionPairs m.p,
        (CleanKey 'p' pr.1 ∨ CleanKey 'g' pr.1) ∧ CleanRule pr.2 := by
      intro pr hpr
      rcases mem_sectionPairs hpr with ⟨e, he, h1, h2⟩
      exact ⟨Or.inl (h1 ▸ (hp.2 e he).1), (hp.2 e he).2.2 pr.2 h2⟩
    have hcleanG : ∀ pr ∈ sectionPairs m.g,
        (CleanKey 'p' pr.1 ∨ CleanKey 'g' pr.1) ∧ CleanRule pr.2 := by
      intro pr hpr
      rcases mem_sectionPairs hpr with ⟨e, he, h1, h2⟩
      exact ⟨Or.inr (h1 ▸ (hg.2 e he).1), (hg.2 e he).2.2 pr.2 h2⟩
    have hcleanAll : ∀ pr ∈ sectionPairs m.p ++ sectionPairs m.g,
        (CleanKey 'p' pr.1 ∨ CleanKey 'g' pr.1) ∧ CleanRule pr.2 := by
      intro pr hpr
      rcases List.mem_append.mp hpr with h' | h'
      · exact hcleanP pr h'
      · exact hcleanG pr h'
    have hkeysP : ∀ pr ∈ sectionPairs m.p, pr.1.head? = some 'p' := by
      intro pr hpr
      rcases mem_sectionPairs hpr with ⟨e, he, h1, _⟩
      exact h1 ▸ (hp.2 e he).1.1
    have hkeysG : ∀ pr ∈ sectionPairs m.g, pr.1.head? = some 'g' := by
      intro pr hpr
      rcases mem_sectionPairs hpr with ⟨e, he, h1, _⟩
      exact h1 ▸ (hg.2 e he).1.1
    have hlines : sectionLines m.p ++ sectionLines m.g =
        (sectionPairs m.p ++ sectionPairs m.g).map
          (fun pr => ruleLine pr.1 pr.2) := by
      simp [sectionLines, List.map_append]
    rw [decodeDoc, henc, scanLines_joinSep _ hprops hne, hlines,
      processLines_ruleLines _ emptyModel hcleanAll]
    congr 1
    rw [List.foldl_append, foldl_modelAdd_section_p _ _ hkeysP,
      foldl_sectionPairs m.p (emptyModel.p) (by simpa [emptyModel] using hp.1)
        (fun e he => (hp.2 e he).2.1),
      foldl_modelAdd_section_g _ _ hkeysG,
      foldl_sectionPairs m.g (emptyModel.g) (by simpa [emptyModel] using hg.1)
        (fun e he => (hg.2 e he).2.1)]
    simp [emptyModel]

/-- Witness for claim C3 (amended) at a concrete input: the spec's scenario
model is well formed and survives the round trip. -/
theorem claim_C3_amended_witness :
    WellFormedModel scenarioModel ∧
      decodeDoc (encodeModel scenarioModel.p scenarioModel.g) =
        Except.ok scenarioModel :=
  ⟨by decide, claim_C3_amended_roundtrip scenarioModel (by decide)⟩

end BlobAdapter
